import Mathlib

/-!
# Bubble-sort visualisation: the sorting step of `main`

A shallow embedding of `src/main.cpp`.  The program keeps five variables between frames,
`bars`, `sorted`, `si`, `sj` and `sorting`; once per frame the block under
"Handle sorting & swap animation" (lines 134-173) advances them.  `tick` is that block,
`animLoop` is the timed loop inside it (lines 143-158), `swapBranch` the whole body of
`if (bars[sj] > bars[sj + 1])` (lines 138-159).

`num_bars` is a parameter `N`.  It has type `unsigned`, while `si` and `sj` are `int`:
the two bounds `num_bars - si - 1` and `num_bars - 1` are computed modulo `2^32`, an
increment of an `int` beyond `INT_MAX` and an `operator[]` outside its vector are errors.
-/

namespace SortVis

/-! ## Machine integers and vectors -/

/-- Largest value of the 32-bit `int` type of `si` and `sj`. -/
def INT_MAX : Int := 2147483647

/-- Value of an integer expression once converted to the 32-bit `unsigned` type. -/
def toUnsigned (x : Int) : Int := x % 4294967296

/-- Failures of the sorting step. -/
inductive Err
  | outOfRange
  | intOverflow
  deriving DecidableEq

/-- Increment of an `int`: `x + 1`, `x++`. -/
def incr (x : Int) : Except Err Int :=
  if x < INT_MAX then .ok (x + 1) else .error .intOverflow

/-- Read `v[i]` of a `std::vector` with an `int` index. -/
def vecGet {α : Type} (v : List α) (i : Int) : Except Err α :=
  if 0 ≤ i then
    match v[i.toNat]? with
    | some a => .ok a
    | none => .error .outOfRange
  else .error .outOfRange

/-- Write `v[i] = a` of a `std::vector` with an `int` index. -/
def vecSet {α : Type} (v : List α) (i : Int) (a : α) : Except Err (List α) :=
  if 0 ≤ i ∧ i.toNat < v.length then .ok (v.set i.toNat a) else .error .outOfRange

/-! ## The sort state machine -/

/-- The variables of `main` that live across frames (lines 89-103). -/
structure State where
  bars : List Int
  sorted : List Bool
  si : Int
  sj : Int
  sorting : Bool
  deriving DecidableEq

/-- What one execution of the sorting block did: the compare/swap branch at index `j`
(and whether the pair was exchanged), the finalize branch (with the indices `k` of its
writes `sorted[k] = true`, in order), or nothing because `sorting` is false. -/
inductive Step
  | compare (j : Nat) (swapped : Bool)
  | finalize (writes : List Nat)
  | idle
  deriving DecidableEq

/-- State at line 103: `sorted(num_bars, false)`, `si = 0, sj = 0`, `sorting = true`. -/
def init (N : Nat) (bars0 : List Int) : State :=
  { bars := bars0, sorted := List.replicate N false, si := 0, sj := 0, sorting := true }

/-- Line 159, `std::swap(bars[sj], bars[sj + 1])`. -/
def swapBars (bars : List Int) (sj : Int) : Except Err (List Int) :=
  match vecGet bars sj, incr sj with
  | .ok a, .ok j1 =>
    match vecGet bars j1 with
    | .ok b =>
      match vecSet bars sj b with
      | .ok bars1 => vecSet bars1 j1 a
      | .error e => .error e
    | .error e => .error e
  | .error e, _ => .error e
  | _, .error e => .error e

/-- One execution of the block `if (sorting) { ... }`, lines 134-173.  The timed loop of
lines 143-158 assigns none of the five variables; it is `animLoop` below. -/
def tick (N : Nat) (s : State) : Except Err (State × Step) :=
  if s.sorting then
    if toUnsigned s.sj < toUnsigned ((N : Int) - s.si - 1) then
      match vecGet s.bars s.sj, incr s.sj with
      | .ok a, .ok j1 =>
        match vecGet s.bars j1 with
        | .ok b =>
          if a > b then
            match swapBars s.bars s.sj with
            | .ok bars2 => .ok ({ s with bars := bars2, sj := j1 }, .compare s.sj.toNat true)
            | .error e => .error e
          else .ok ({ s with sj := j1 }, .compare s.sj.toNat false)
        | .error e => .error e
      | .error e, _ => .error e
      | _, .error e => .error e
    else
      match vecSet s.sorted s.sj true, incr s.si with
      | .ok sorted1, .ok si1 =>
        if toUnsigned si1 ≥ toUnsigned ((N : Int) - 1) then
          match vecSet sorted1 0 true with
          | .ok sorted2 =>
            .ok ({ s with sorted := sorted2, sj := 0, si := si1, sorting := false },
                 .finalize [s.sj.toNat, 0])
          | .error e => .error e
        else .ok ({ s with sorted := sorted1, sj := 0, si := si1 }, .finalize [s.sj.toNat])
      | .error e, _ => .error e
      | _, .error e => .error e
  else .ok (s, .idle)

/-- The sorting block executed `n` times in a row, with the record of each execution. -/
def ticks (N : Nat) : Nat → State → Except Err (State × List Step)
  | 0, s => .ok (s, [])
  | n + 1, s =>
    match ticks N n s with
    | .ok (s1, tr) =>
      match tick N s1 with
      | .ok (s2, st) => .ok (s2, tr ++ [st])
      | .error e => .error e
    | .error e => .error e

/-- States the machine passes through when started at line 103 with `bars0`. -/
def Reachable (N : Nat) (bars0 : List Int) (s : State) : Prop :=
  ∃ n tr, ticks N n (init N bars0) = .ok (s, tr)

/-- Number of executions that took the compare/swap branch. -/
def compareCount (tr : List Step) : Nat :=
  tr.countP fun st => match st with
    | .compare _ _ => true
    | _ => false

/-- Number of executions that exchanged a pair. -/
def swapCount (tr : List Step) : Nat :=
  tr.countP fun st => match st with
    | .compare _ true => true
    | _ => false

/-- Number of executions that took the finalize branch. -/
def finalizeCount (tr : List Step) : Nat :=
  tr.countP fun st => match st with
    | .finalize _ => true
    | _ => false

/-- Indices `k` of all writes `sorted[k] = true`, in the order they happen. -/
def writes : List Step → List Nat
  | [] => []
  | .finalize ks :: tr => ks ++ writes tr
  | _ :: tr => writes tr

/-- Ticks that precede outer pass `i`: pass `k` is `N - 1 - k` compare ticks and one
finalize tick. -/
def passStart (N : Nat) : Nat → Nat
  | 0 => 0
  | i + 1 => passStart N i + (N - i)

/-! ## The swap animation (lines 138-159) -/

/-- The constant `duration` of line 140: `swap_time.asMilliseconds()`, 500 ms.  The
`float` arithmetic of the animation is taken over the rationals. -/
def duration : ℚ := 500

/-- What `window.pollEvent()` can deliver. -/
inductive Event
  | closed
  | resized
  | other
  deriving DecidableEq

/-- Calls made on the window, in program order. -/
inductive Call
  | close
  | clear
  | drawBars (highlight1 highlight2 : Int) (special1 special2 : ℚ)
  | display
  deriving DecidableEq

/-- The window as the program sees it: `isOpen()` and the calls made on it so far. -/
structure Window where
  isOpen : Bool
  calls : List Call
  deriving DecidableEq

/-- One pass of the animation loop: the clock reading behind `t`, and `t`,
`currentX1`, `currentX2` of lines 144-146. -/
structure Frame where
  elapsed : Int
  t : ℚ
  currentX1 : ℚ
  currentX2 : ℚ
  deriving DecidableEq

/-- Line 138, the slot centre of bar `sj`. -/
def slotX1 (bar_width : ℚ) (sj : Int) : ℚ := (sj : ℚ) * bar_width + bar_width / 2

/-- Line 139, the slot centre of bar `sj + 1`. -/
def slotX2 (bar_width : ℚ) (sj : Int) : ℚ :=
  (sj : ℚ) * bar_width + bar_width + bar_width / 2

/-- Lines 149-153: the pending events are drained, `Closed` calls `window.close()`. -/
def pollAnim (w : Window) : List Event → Window
  | [] => w
  | .closed :: es => pollAnim { isOpen := false, calls := w.calls ++ [.close] } es
  | _ :: es => pollAnim w es

/-- State of the animation when the clock readings supplied are used up: the window,
the passes made so far, and whether the loop has ended (its guard was seen false). -/
structure AnimResult where
  window : Window
  frames : List Frame
  finished : Bool
  deriving DecidableEq

/-- Lines 143-158.  `clock` lists the successive values of
`clock.getElapsedTime().asMilliseconds()`: one per test of the loop guard and one more
per pass for `t`.  `polls` lists the events pending at the poll of each pass. -/
def animLoop (x1 x2 : ℚ) (sj : Int) :
    List Int → List (List Event) → Window → List Frame → AnimResult
  | [], _, w, fs => ⟨w, fs, false⟩
  | [g], _, w, fs => if (g : ℚ) < duration then ⟨w, fs, false⟩ else ⟨w, fs, true⟩
  | g :: e :: clock, polls, w, fs =>
    if (g : ℚ) < duration then
      let t := (e : ℚ) / duration
      let currentX1 := x1 + (x2 - x1) * t
      let currentX2 := x2 - (x2 - x1) * t
      let w1 := pollAnim w (polls.headD [])
      let w2 : Window :=
        { w1 with calls := w1.calls ++ [.clear, .drawBars sj (sj + 1) currentX1 currentX2,
                                        .display] }
      animLoop x1 x2 sj clock polls.tail w2 (fs ++ [⟨e, t, currentX1, currentX2⟩])
    else ⟨w, fs, true⟩

/-- Result of the swap branch: the window, the passes of the animation, and `bars` after
line 159, which is reached only when the loop has ended. -/
structure SwapResult where
  window : Window
  frames : List Frame
  bars : Option (Except Err (List Int))

/-- Lines 138-159, the body of `if (bars[sj] > bars[sj + 1])`: the animation, then the
exchange. -/
def swapBranch (bar_width : ℚ) (clock : List Int) (polls : List (List Event)) (w : Window)
    (s : State) : SwapResult :=
  let r := animLoop (slotX1 bar_width s.sj) (slotX2 bar_width s.sj) s.sj clock polls w []
  { window := r.window, frames := r.frames,
    bars := if r.finished then some (swapBars s.bars s.sj) else none }

/-! ## Invariants of a run -/

/-- Index and flag facts that hold in every state of a run with `1 ≤ N ≤ INT_MAX`. -/
structure Inv (N : Nat) (s : State) : Prop where
  lenB : s.bars.length = N
  lenS : s.sorted.length = N
  si0 : 0 ≤ s.si
  sj0 : 0 ≤ s.sj
  busy : s.sorting = true → s.si + s.sj + 1 ≤ N ∧ (2 ≤ N → s.si + 2 ≤ N)
  done : s.sorting = false → s.sj = 0 ∧ (2 ≤ N → s.si + 1 = N) ∧ (N = 1 → s.si = 1)
  flagsBusy : s.sorting = true →
    ∀ k, k < N → s.sorted[k]? = some (decide (N ≤ k + s.si.toNat))
  flagsDone : s.sorting = false → ∀ k, k < N → s.sorted[k]? = some true

/-- Facts tying the number of ticks and their record to the indices, for a run started
at `init`. -/
structure Progress (N n : Nat) (s : State) (tr : List Step) : Prop where
  len : tr.length = n
  busy : s.sorting = true →
    n = passStart N s.si.toNat + s.sj.toNat ∧
    compareCount tr + s.si.toNat = n ∧
    finalizeCount tr = s.si.toNat ∧
    writes tr = (List.range s.si.toNat).map (fun k => N - 1 - k)
  done2 : s.sorting = false → 2 ≤ N →
    passStart N (N - 1) ≤ n ∧
    compareCount tr + (N - 1) = passStart N (N - 1) ∧
    finalizeCount tr = N - 1 ∧
    writes tr = (List.range N).map (fun k => N - 1 - k)
  done1 : s.sorting = false → N = 1 →
    1 ≤ n ∧ compareCount tr = 0 ∧ finalizeCount tr = 1 ∧ writes tr = [0, 0]

/-- The last `si` positions hold values in order that bound everything before them, and
`bars[sj]` bounds the positions before it in the current pass. -/
structure Ordered (N : Nat) (s : State) : Prop where
  suffix : ∀ a b x y, a < b → N ≤ b + s.si.toNat →
    s.bars[a]? = some x → s.bars[b]? = some y → x ≤ y
  belowMax : ∀ a x y, a ≤ s.sj.toNat →
    s.bars[a]? = some x → s.bars[s.sj.toNat]? = some y → x ≤ y

/-! ## The tick on a state within bounds -/

theorem tick_idle (N : Nat) (s : State) (h : s.sorting = false) :
    tick N s = .ok (s, .idle) := by
  simp [tick, h]

theorem tick_compare (N : Nat) (s : State) (a b : Int)
    (hN : (N : Int) ≤ INT_MAX) (hs : s.sorting = true)
    (hi : 0 ≤ s.si) (hj : 0 ≤ s.sj) (hlt : s.si + s.sj + 1 < N)
    (ha : s.bars[s.sj.toNat]? = some a) (hb : s.bars[s.sj.toNat + 1]? = some b) :
    tick N s = .ok (if a > b
      then ({ s with bars := (s.bars.set s.sj.toNat b).set (s.sj.toNat + 1) a, sj := s.sj + 1 },
            .compare s.sj.toNat true)
      else ({ s with sj := s.sj + 1 }, .compare s.sj.toNat false)) := by
  have hg : toUnsigned s.sj < toUnsigned ((N : Int) - s.si - 1) := by
    unfold toUnsigned; unfold INT_MAX at hN; omega
  have hinc : incr s.sj = .ok (s.sj + 1) := by
    unfold incr; unfold INT_MAX at *; rw [if_pos (by omega)]
  have hga : vecGet s.bars s.sj = .ok a := by
    unfold vecGet; rw [if_pos hj, ha]
  have hj1 : (s.sj + 1).toNat = s.sj.toNat + 1 := by omega
  have hgb : vecGet s.bars (s.sj + 1) = .ok b := by
    unfold vecGet; rw [if_pos (by omega), hj1, hb]
  have hla : s.sj.toNat < s.bars.length := by
    by_contra hc
    rw [List.getElem?_eq_none (by omega)] at ha
    exact Option.noConfusion ha
  have hlb : s.sj.toNat + 1 < s.bars.length := by
    by_contra hc
    rw [List.getElem?_eq_none (by omega)] at hb
    exact Option.noConfusion hb
  unfold tick
  rw [if_pos hs, if_pos hg, hga, hinc]
  simp only [hgb]
  by_cases hab : a > b
  · have hs1 : vecSet s.bars s.sj b = .ok (s.bars.set s.sj.toNat b) := by
      unfold vecSet; rw [if_pos ⟨hj, hla⟩]
    have hs2 : vecSet (s.bars.set s.sj.toNat b) (s.sj + 1) a
        = .ok ((s.bars.set s.sj.toNat b).set (s.sj.toNat + 1) a) := by
      unfold vecSet; rw [if_pos ⟨by omega, by rw [List.length_set]; omega⟩, hj1]
    have hsw : swapBars s.bars s.sj
        = .ok ((s.bars.set s.sj.toNat b).set (s.sj.toNat + 1) a) := by
      unfold swapBars
      rw [hga, hinc]
      simp only [hgb, hs1, hs2]
    rw [if_pos hab, if_pos hab, hsw]
  · rw [if_neg hab, if_neg hab]

theorem tick_finalize (N : Nat) (s : State)
    (hN : (N : Int) ≤ INT_MAX) (hs : s.sorting = true)
    (hi : 0 ≤ s.si) (hj : 0 ≤ s.sj) (heq : s.si + s.sj + 1 = N)
    (hlen : s.sorted.length = N) :
    tick N s = .ok (if (N : Int) ≤ s.si + 2
      then ({ s with sorted := (s.sorted.set s.sj.toNat true).set 0 true, sj := 0,
                     si := s.si + 1, sorting := false },
            .finalize [s.sj.toNat, 0])
      else ({ s with sorted := s.sorted.set s.sj.toNat true, sj := 0, si := s.si + 1 },
            .finalize [s.sj.toNat])) := by
  have hg : ¬ toUnsigned s.sj < toUnsigned ((N : Int) - s.si - 1) := by
    unfold toUnsigned; unfold INT_MAX at hN; omega
  have hinc : incr s.si = .ok (s.si + 1) := by
    unfold incr; unfold INT_MAX at *; rw [if_pos (by omega)]
  have hs1 : vecSet s.sorted s.sj true = .ok (s.sorted.set s.sj.toNat true) := by
    unfold vecSet; rw [if_pos ⟨hj, by omega⟩]
  unfold tick
  rw [if_pos hs, if_neg hg, hs1, hinc]
  simp only []
  by_cases hd : (N : Int) ≤ s.si + 2
  · have hd2 : toUnsigned (s.si + 1) ≥ toUnsigned ((N : Int) - 1) := by
      unfold toUnsigned; unfold INT_MAX at hN; omega
    have hs2 : vecSet (s.sorted.set s.sj.toNat true) 0 true
        = .ok ((s.sorted.set s.sj.toNat true).set 0 true) := by
      unfold vecSet; rw [if_pos ⟨le_refl _, by rw [List.length_set]; simp; omega⟩]; rfl
    rw [if_pos hd2, if_pos hd, hs2]
  · have hd2 : ¬ toUnsigned (s.si + 1) ≥ toUnsigned ((N : Int) - 1) := by
      unfold toUnsigned; unfold INT_MAX at hN; omega
    rw [if_neg hd2, if_neg hd]

theorem inv_init (N : Nat) (bars0 : List Int) (hN : 1 ≤ N) (hlen : bars0.length = N) :
    Inv N (init N bars0) := by
  refine ⟨hlen, by simp [init], by simp [init], by simp [init], ?_, by simp [init], ?_,
    by simp [init]⟩
  · intro _
    simp only [init]
    omega
  · intro _ k hk
    simp only [init]
    rw [List.getElem?_eq_getElem (by simp; exact hk)]
    simp
    omega

/-- The three ways a tick can go from a state satisfying `Inv`. -/
theorem tick_cases (N : Nat) (s : State) (h1 : 1 ≤ N) (hN : (N : Int) ≤ INT_MAX)
    (hI : Inv N s) :
    (s.sorting = false ∧ tick N s = .ok (s, .idle)) ∨
    (s.sorting = true ∧ s.si + s.sj + 1 < N ∧ ∃ a b,
      s.bars[s.sj.toNat]? = some a ∧ s.bars[s.sj.toNat + 1]? = some b ∧
      tick N s = .ok (if a > b
        then ({ s with bars := (s.bars.set s.sj.toNat b).set (s.sj.toNat + 1) a,
                       sj := s.sj + 1 }, .compare s.sj.toNat true)
        else ({ s with sj := s.sj + 1 }, .compare s.sj.toNat false))) ∨
    (s.sorting = true ∧ s.si + s.sj + 1 = N ∧
      tick N s = .ok (if (N : Int) ≤ s.si + 2
        then ({ s with sorted := (s.sorted.set s.sj.toNat true).set 0 true, sj := 0,
                       si := s.si + 1, sorting := false }, .finalize [s.sj.toNat, 0])
        else ({ s with sorted := s.sorted.set s.sj.toNat true, sj := 0, si := s.si + 1 },
              .finalize [s.sj.toNat]))) := by
  rcases Bool.eq_false_or_eq_true s.sorting with hs | hs
  · have hb := (hI.busy hs).1
    have hi := hI.si0
    have hj := hI.sj0
    by_cases hlt : s.si + s.sj + 1 < N
    · have hla : s.sj.toNat < s.bars.length := by rw [hI.lenB]; omega
      have hlb : s.sj.toNat + 1 < s.bars.length := by rw [hI.lenB]; omega
      refine Or.inr (Or.inl ⟨hs, hlt, s.bars[s.sj.toNat], s.bars[s.sj.toNat + 1],
        List.getElem?_eq_getElem hla, List.getElem?_eq_getElem hlb, ?_⟩)
      exact tick_compare N s _ _ hN hs hi hj hlt (List.getElem?_eq_getElem hla)
        (List.getElem?_eq_getElem hlb)
    · have heq : s.si + s.sj + 1 = N := by omega
      exact Or.inr (Or.inr ⟨hs, heq, tick_finalize N s hN hs hi hj heq hI.lenS⟩)
  · exact Or.inl ⟨hs, tick_idle N s hs⟩

theorem inv_tick (N : Nat) (s s' : State) (st : Step) (h1 : 1 ≤ N)
    (hN : (N : Int) ≤ INT_MAX) (hI : Inv N s) (ht : tick N s = .ok (s', st)) :
    Inv N s' := by
  rcases tick_cases N s h1 hN hI with ⟨hs, he⟩ | ⟨hs, hlt, a, b, ha, hb, he⟩ | ⟨hs, heq, he⟩
  · rw [he] at ht
    injection ht with ht
    injection ht with ht1 ht2
    subst ht1
    exact hI
  · rw [he] at ht
    injection ht with ht
    have hbz := (hI.busy hs).2
    have hi := hI.si0
    have hj := hI.sj0
    have hfl := hI.flagsBusy hs
    have hlenB := hI.lenB
    have hlenS := hI.lenS
    split at ht
    · injection ht with ht1 ht2
      subst ht1
      refine ⟨by simp [hlenB], hlenS, hi, by simp; omega, ?_, ?_, ?_, ?_⟩
      · intro _; simp only; constructor <;> omega
      · intro h; simp [hs] at h
      · intro _; exact hfl
      · intro h; simp [hs] at h
    · injection ht with ht1 ht2
      subst ht1
      refine ⟨hlenB, hlenS, hi, by simp; omega, ?_, ?_, ?_, ?_⟩
      · intro _; simp only; constructor <;> omega
      · intro h; simp [hs] at h
      · intro _; exact hfl
      · intro h; simp [hs] at h
  · rw [he] at ht
    injection ht with ht
    have hbz := (hI.busy hs).2
    have hi := hI.si0
    have hj := hI.sj0
    have hfl := hI.flagsBusy hs
    have hlenB := hI.lenB
    have hlenS := hI.lenS
    split at ht
    · rename_i hd
      injection ht with ht1 ht2
      subst ht1
      refine ⟨hlenB, by simp [hlenS], by simp; omega, by simp, ?_, ?_, ?_, ?_⟩
      · intro h; simp at h
      · intro _; simp only; refine ⟨trivial, ?_, ?_⟩ <;> intro _ <;> omega
      · intro h; simp at h
      · intro _ k hk
        simp only
        rw [List.getElem?_set, List.getElem?_set]
        by_cases hk0 : 0 = k
        · rw [if_pos hk0]; simp [hlenS]; omega
        · rw [if_neg hk0]
          by_cases hkj : s.sj.toNat = k
          · rw [if_pos hkj, if_pos (by omega)]
          · rw [if_neg hkj, hfl k hk]
            simp
            omega
    · rename_i hd
      injection ht with ht1 ht2
      subst ht1
      refine ⟨hlenB, by simp [hlenS], by simp; omega, by simp, ?_, ?_, ?_, ?_⟩
      · intro _; simp only; constructor <;> omega
      · intro h; simp [hs] at h
      · intro _ k hk
        simp only
        rw [List.getElem?_set]
        by_cases hkj : s.sj.toNat = k
        · rw [if_pos hkj, if_pos (by omega)]
          simp
          omega
        · rw [if_neg hkj, hfl k hk]
          simp
          omega
      · intro h; simp [hs] at h

theorem ticks_succ_ok (N n : Nat) (s s1 s2 : State) (tr : List Step) (st : Step)
    (h1 : ticks N n s = .ok (s1, tr)) (h2 : tick N s1 = .ok (s2, st)) :
    ticks N (n + 1) s = .ok (s2, tr ++ [st]) := by
  simp only [ticks, h1, h2]

theorem ticks_succ_inv (N n : Nat) (s s2 : State) (tr2 : List Step)
    (h : ticks N (n + 1) s = .ok (s2, tr2)) :
    ∃ s1 tr st, ticks N n s = .ok (s1, tr) ∧ tick N s1 = .ok (s2, st) ∧ tr2 = tr ++ [st] := by
  simp only [ticks] at h
  split at h
  · rename_i s1 tr h1
    split at h
    · rename_i s2' st h2
      injection h with h
      injection h with ha hb
      subst ha
      exact ⟨s1, tr, st, h1, h2, hb.symm⟩
    · exact Except.noConfusion h
  · exact Except.noConfusion h

/-- A property kept by every tick holds after any number of ticks. -/
theorem ticks_preserve (N : Nat) (P : State → Prop)
    (hP : ∀ s s' st, P s → tick N s = .ok (s', st) → P s') :
    ∀ n s s' tr, P s → ticks N n s = .ok (s', tr) → P s' := by
  intro n
  induction n with
  | zero =>
    intro s s' tr h0 h
    simp only [ticks] at h
    injection h with h
    injection h with ha _
    subst ha
    exact h0
  | succ n ih =>
    intro s s' tr h0 h
    obtain ⟨s1, tr1, st, h1, h2, _⟩ := ticks_succ_inv N n s s' tr h
    exact hP s1 s' st (ih s s1 tr1 h0 h1) h2

theorem tick_total (N : Nat) (s : State) (h1 : 1 ≤ N) (hN : (N : Int) ≤ INT_MAX)
    (hI : Inv N s) : ∃ s' st, tick N s = .ok (s', st) := by
  rcases tick_cases N s h1 hN hI with ⟨_, he⟩ | ⟨_, _, a, b, _, _, he⟩ | ⟨_, _, he⟩
  · exact ⟨_, _, he⟩
  · rw [he]; split <;> exact ⟨_, _, rfl⟩
  · rw [he]; split <;> exact ⟨_, _, rfl⟩

theorem ticks_total (N : Nat) (h1 : 1 ≤ N) (hN : (N : Int) ≤ INT_MAX) :
    ∀ n s, Inv N s → ∃ s' tr, ticks N n s = .ok (s', tr) ∧ Inv N s' := by
  intro n
  induction n with
  | zero => intro s hI; exact ⟨s, [], rfl, hI⟩
  | succ n ih =>
    intro s hI
    obtain ⟨s1, tr, h1', hI1⟩ := ih s hI
    obtain ⟨s2, st, h2⟩ := tick_total N s1 h1 hN hI1
    exact ⟨s2, tr ++ [st], ticks_succ_ok N n s s1 s2 tr st h1' h2, inv_tick N s1 s2 st h1 hN hI1 h2⟩

theorem passStart_mono (N : Nat) (i m : Nat) (h : i < m) :
    passStart N i + (N - i) ≤ passStart N m := by
  induction m with
  | zero => omega
  | succ m ih =>
    simp only [passStart]
    by_cases hm : i = m
    · subst hm; exact le_refl _
    · have := ih (by omega); omega

theorem passStart_closed (N i : Nat) (h : i ≤ N) :
    2 * passStart N i + i * i = 2 * i * N + i := by
  induction i with
  | zero => simp [passStart]
  | succ i ih =>
    have ih' := ih (by omega)
    obtain ⟨d, rfl⟩ : ∃ d, N = i + 1 + d := ⟨N - (i + 1), by omega⟩
    simp only [passStart]
    have : i + 1 + d - i = d + 1 := by omega
    rw [this]
    nlinarith [ih']

theorem passStart_last (N : Nat) (h : 1 ≤ N) :
    passStart N (N - 1) = N * (N - 1) / 2 + (N - 1) := by
  obtain ⟨m, rfl⟩ : ∃ m, N = m + 1 := ⟨N - 1, by omega⟩
  have hc := passStart_closed (m + 1) m (by omega)
  simp only [Nat.add_sub_cancel]
  obtain ⟨c, hc2⟩ : ∃ c, (m + 1) * m = 2 * c := by
    have := Nat.even_mul_succ_self m
    obtain ⟨c, hc⟩ := this
    exact ⟨c, by rw [Nat.mul_comm]; omega⟩
  rw [hc2]
  have : 2 * c / 2 = c := by omega
  rw [this]
  nlinarith [hc, hc2]

theorem compareCount_snoc (tr : List Step) (st : Step) :
    compareCount (tr ++ [st]) = compareCount tr +
      (match st with
        | .compare _ _ => 1
        | _ => 0) := by
  unfold compareCount
  rw [List.countP_append]
  cases st <;> simp

theorem swapCount_snoc (tr : List Step) (st : Step) :
    swapCount (tr ++ [st]) = swapCount tr +
      (match st with
        | .compare _ true => 1
        | _ => 0) := by
  unfold swapCount
  rw [List.countP_append]
  cases st with
  | compare j b => cases b <;> simp
  | finalize ks => simp
  | idle => simp

theorem finalizeCount_snoc (tr : List Step) (st : Step) :
    finalizeCount (tr ++ [st]) = finalizeCount tr +
      (match st with
        | .finalize _ => 1
        | _ => 0) := by
  unfold finalizeCount
  rw [List.countP_append]
  cases st <;> simp

theorem writes_snoc (tr : List Step) (st : Step) :
    writes (tr ++ [st]) = writes tr ++
      (match st with
        | .finalize ks => ks
        | _ => []) := by
  induction tr with
  | nil => cases st <;> simp [writes]
  | cons x tr ih =>
    cases x <;> simp [writes, ih]

theorem progress_tick (N n : Nat) (s s' : State) (tr : List Step) (st : Step) (h1 : 1 ≤ N)
    (hN : (N : Int) ≤ INT_MAX) (hI : Inv N s) (hP : Progress N n s tr)
    (ht : tick N s = .ok (s', st)) : Progress N (n + 1) s' (tr ++ [st]) := by
  have hlen : (tr ++ [st]).length = n + 1 := by simp [hP.len]
  have hi := hI.si0
  have hj := hI.sj0
  rcases tick_cases N s h1 hN hI with ⟨hs, he⟩ | ⟨hs, hlt, a, b, ha, hb, he⟩ | ⟨hs, heq, he⟩
  · rw [he] at ht
    injection ht with ht
    injection ht with ht1 ht2
    subst ht1; subst ht2
    refine ⟨hlen, fun h => by simp [hs] at h, ?_, ?_⟩
    · intro _ h2
      obtain ⟨p1, p2, p3, p4⟩ := hP.done2 hs h2
      rw [compareCount_snoc, finalizeCount_snoc, writes_snoc]
      exact ⟨by omega, by simpa using p2, by simpa using p3, by simpa using p4⟩
    · intro _ h2
      obtain ⟨p1, p2, p3, p4⟩ := hP.done1 hs h2
      rw [compareCount_snoc, finalizeCount_snoc, writes_snoc]
      exact ⟨by omega, by simpa using p2, by simpa using p3, by simpa using p4⟩
  · rw [he] at ht
    injection ht with ht
    obtain ⟨p1, p2, p3, p4⟩ := hP.busy hs
    have hj1 : (s.sj + 1).toNat = s.sj.toNat + 1 := by omega
    have key : ∀ sw bs, Progress N (n + 1)
        { bars := bs, sorted := s.sorted, si := s.si, sj := s.sj + 1, sorting := s.sorting }
        (tr ++ [.compare s.sj.toNat sw]) := by
      intro sw bs
      refine ⟨by simp [hP.len], ?_, fun h => by simp [hs] at h, fun h => by simp [hs] at h⟩
      intro _
      simp only [hj1]
      rw [compareCount_snoc, finalizeCount_snoc, writes_snoc]
      exact ⟨by omega, by simp only; omega, by simpa using p3, by simpa using p4⟩
    split at ht
    · injection ht with ht1 ht2
      subst ht1; subst ht2
      exact key true _
    · injection ht with ht1 ht2
      subst ht1; subst ht2
      exact key false _
  · rw [he] at ht
    injection ht with ht
    obtain ⟨p1, p2, p3, p4⟩ := hP.busy hs
    have hi1 : (s.si + 1).toNat = s.si.toNat + 1 := by omega
    have hb2 := (hI.busy hs).2
    split at ht
    · rename_i hd
      injection ht with ht1 ht2
      subst ht1; subst ht2
      refine ⟨hlen, fun h => by simp at h, ?_, ?_⟩
      · intro _ h2
        have hb3 := hb2 h2
        obtain ⟨i, hiN⟩ : ∃ i, N = i + 2 := ⟨N - 2, by omega⟩
        subst hiN
        have e1 : s.si.toNat = i := by omega
        have e2 : s.sj.toNat = 1 := by omega
        rw [e1, e2] at p1
        rw [e1] at p2 p3 p4
        rw [compareCount_snoc, finalizeCount_snoc, writes_snoc, e2, p4]
        have e3 : i + 2 - 1 = i + 1 := by omega
        simp only [e3, passStart]
        refine ⟨by omega, by omega, by omega, ?_⟩
        rw [List.range_succ, List.range_succ]
        simp
      · intro _ h2
        subst h2
        have e1 : s.si.toNat = 0 := by omega
        have e2 : s.sj.toNat = 0 := by omega
        rw [e1, e2] at p1
        rw [e1] at p2 p3 p4
        rw [compareCount_snoc, finalizeCount_snoc, writes_snoc, e2, p4]
        simp only [passStart] at p1
        refine ⟨by omega, by simp only; omega, by simp only; omega, by simp⟩
    · rename_i hd
      injection ht with ht1 ht2
      subst ht1; subst ht2
      refine ⟨hlen, ?_, fun h => by simp [hs] at h, fun h => by simp [hs] at h⟩
      intro _
      simp only [hi1, passStart]
      rw [compareCount_snoc, finalizeCount_snoc, writes_snoc, p4, List.range_succ]
      have e2 : s.sj.toNat = N - 1 - s.si.toNat := by omega
      refine ⟨by simp; omega, by simp only; omega, by simp only; omega, ?_⟩
      simp [e2]

theorem progress_init (N : Nat) (bars0 : List Int) : Progress N 0 (init N bars0) [] := by
  refine ⟨rfl, ?_, fun h => by simp [init] at h, fun h => by simp [init] at h⟩
  intro _
  simp [init, passStart, compareCount, finalizeCount, writes]

theorem progress_ticks (N : Nat) (bars0 : List Int) (h1 : 1 ≤ N) (hN : (N : Int) ≤ INT_MAX)
    (hlen : bars0.length = N) :
    ∀ n s tr, ticks N n (init N bars0) = .ok (s, tr) → Inv N s ∧ Progress N n s tr := by
  intro n
  induction n with
  | zero =>
    intro s tr h
    simp only [ticks] at h
    injection h with h
    injection h with ha hb
    subst ha; subst hb
    exact ⟨inv_init N bars0 h1 hlen, progress_init N bars0⟩
  | succ n ih =>
    intro s tr h
    obtain ⟨s1, tr1, st, e1, e2, e3⟩ := ticks_succ_inv N n _ s tr h
    obtain ⟨hI, hP⟩ := ih s1 tr1 e1
    subst e3
    exact ⟨inv_tick N s1 s st h1 hN hI e2, progress_tick N n s1 s tr1 st h1 hN hI hP e2⟩

/-! ### Inverting the vector operations -/

theorem vecGet_ok {α : Type} (v : List α) (i : Int) (a : α) (h : vecGet v i = .ok a) :
    0 ≤ i ∧ v[i.toNat]? = some a := by
  unfold vecGet at h
  split at h
  · rename_i h0
    split at h
    · rename_i x hx
      injection h with h
      subst h
      exact ⟨h0, hx⟩
    · exact Except.noConfusion h
  · exact Except.noConfusion h

theorem vecSet_ok {α : Type} (v v' : List α) (i : Int) (a : α) (h : vecSet v i a = .ok v') :
    0 ≤ i ∧ i.toNat < v.length ∧ v' = v.set i.toNat a := by
  unfold vecSet at h
  split at h
  · rename_i h0
    injection h with h
    exact ⟨h0.1, h0.2, h.symm⟩
  · exact Except.noConfusion h

theorem incr_ok (x y : Int) (h : incr x = .ok y) : y = x + 1 := by
  unfold incr at h
  split at h
  · injection h with h; exact h.symm
  · exact Except.noConfusion h

theorem swapBars_ok (bars bars' : List Int) (sj : Int) (h : swapBars bars sj = .ok bars') :
    ∃ a b, 0 ≤ sj ∧ bars[sj.toNat]? = some a ∧ bars[sj.toNat + 1]? = some b ∧
      bars' = (bars.set sj.toNat b).set (sj.toNat + 1) a := by
  unfold swapBars at h
  split at h
  · rename_i a j1 ha hj1
    obtain ⟨h0, ha'⟩ := vecGet_ok _ _ _ ha
    have e := incr_ok _ _ hj1
    subst e
    have hj : (sj + 1).toNat = sj.toNat + 1 := by omega
    split at h
    · rename_i b hb
      obtain ⟨_, hb'⟩ := vecGet_ok _ _ _ hb
      rw [hj] at hb'
      split at h
      · rename_i bars1 h1
        obtain ⟨_, _, e1⟩ := vecSet_ok _ _ _ _ h1
        obtain ⟨_, _, e2⟩ := vecSet_ok _ _ _ _ h
        rw [hj] at e2
        subst e1
        exact ⟨a, b, h0, ha', hb', e2⟩
      · exact Except.noConfusion h
    · exact Except.noConfusion h
  · exact Except.noConfusion h
  · exact Except.noConfusion h

/-- What a tick can do to `bars`, from any state at all: nothing, or the exchange of the
adjacent pair at `sj`, which happens exactly in a step recorded as a swap. -/
theorem tick_bars (N : Nat) (s s' : State) (st : Step) (h : tick N s = .ok (s', st)) :
    (s'.bars = s.bars ∧ ∀ j, st ≠ .compare j true) ∨
    (∃ a b, 0 ≤ s.sj ∧ s.bars[s.sj.toNat]? = some a ∧ s.bars[s.sj.toNat + 1]? = some b ∧
      a > b ∧ s'.bars = (s.bars.set s.sj.toNat b).set (s.sj.toNat + 1) a ∧
      st = .compare s.sj.toNat true) := by
  unfold tick at h
  split at h
  · split at h
    · split at h
      · rename_i a j1 ha hj1
        obtain ⟨h0, ha'⟩ := vecGet_ok _ _ _ ha
        have e := incr_ok _ _ hj1
        subst e
        have hj : (s.sj + 1).toNat = s.sj.toNat + 1 := by omega
        split at h
        · rename_i b hb
          obtain ⟨_, hb'⟩ := vecGet_ok _ _ _ hb
          rw [hj] at hb'
          split at h
          · rename_i hab
            split at h
            · rename_i bars2 hsw
              obtain ⟨a', b', _, ha2, hb2, e2⟩ := swapBars_ok _ _ _ hsw
              rw [ha'] at ha2
              rw [hb'] at hb2
              injection ha2 with ha2
              injection hb2 with hb2
              subst ha2; subst hb2
              injection h with h
              injection h with h1 h2
              subst h1; subst h2
              exact Or.inr ⟨a, b, h0, ha', hb', hab, e2, rfl⟩
            · exact Except.noConfusion h
          · injection h with h
            injection h with h1 h2
            subst h1; subst h2
            exact Or.inl ⟨rfl, fun j hc => by injection hc with _ hc; exact Bool.noConfusion hc⟩
        · exact Except.noConfusion h
      · exact Except.noConfusion h
      · exact Except.noConfusion h
    · split at h
      · split at h
        · split at h
          · injection h with h
            injection h with h1 h2
            subst h1; subst h2
            exact Or.inl ⟨rfl, fun j hc => Step.noConfusion hc⟩
          · exact Except.noConfusion h
        · injection h with h
          injection h with h1 h2
          subst h1; subst h2
          exact Or.inl ⟨rfl, fun j hc => Step.noConfusion hc⟩
      · exact Except.noConfusion h
      · exact Except.noConfusion h
  · injection h with h
    injection h with h1 h2
    subst h1; subst h2
    exact Or.inl ⟨rfl, fun j hc => Step.noConfusion hc⟩

/-! ### Exchanging an adjacent pair -/

theorem swap_perm (l : List Int) (j : Nat) (a b : Int) (ha : l[j]? = some a)
    (hb : l[j + 1]? = some b) : ((l.set j b).set (j + 1) a).Perm l := by
  induction l generalizing j with
  | nil => simp at ha
  | cons x l ih =>
    cases j with
    | zero =>
      cases l with
      | nil => simp at hb
      | cons y l =>
        simp at ha hb
        subst ha; subst hb
        simp only [List.set_cons_zero, List.set_cons_succ]
        exact List.Perm.swap _ _ _
    | succ j =>
      simp only [List.getElem?_cons_succ] at ha hb
      simp only [List.set_cons_succ]
      exact List.Perm.cons _ (ih j ha hb)

theorem getElem?_swap (l : List Int) (j k : Nat) (a b : Int) (hj : j + 1 < l.length) :
    ((l.set j b).set (j + 1) a)[k]? =
      if k = j then some b else if k = j + 1 then some a else l[k]? := by
  rw [List.getElem?_set, List.getElem?_set, List.length_set]
  by_cases h1 : k = j
  · subst h1
    rw [if_neg (by omega), if_pos rfl, if_pos (by omega), if_pos rfl]
  · by_cases h2 : k = j + 1
    · subst h2
      rw [if_pos rfl, if_pos hj, if_neg h1, if_pos rfl]
    · rw [if_neg (by omega), if_neg (by omega), if_neg h1, if_neg h2]

theorem getElem?_lt {α : Type} (l : List α) (k : Nat) (x : α) (h : l[k]? = some x) :
    k < l.length := by
  by_contra hc
  rw [List.getElem?_eq_none (by omega)] at h
  exact Option.noConfusion h

/-! ### The bubble-sort order invariant -/

theorem ordered_init (N : Nat) (bars0 : List Int) (hlen : bars0.length = N) :
    Ordered N (init N bars0) := by
  constructor
  · intro a b x y _ hb _ hy
    have := getElem?_lt _ _ _ hy
    simp only [init] at this hb
    simp at hb
    omega
  · intro a x y ha hx hy
    simp only [init] at ha hx hy
    have : a = 0 := by simpa using ha
    subst this
    simp at hy
    rw [hx] at hy
    injection hy with hy
    omega

theorem ordered_tick (N : Nat) (s s' : State) (st : Step) (h1 : 1 ≤ N)
    (hN : (N : Int) ≤ INT_MAX) (hI : Inv N s) (hO : Ordered N s)
    (ht : tick N s = .ok (s', st)) : Ordered N s' := by
  have hi := hI.si0
  have hj := hI.sj0
  rcases tick_cases N s h1 hN hI with ⟨hs, he⟩ | ⟨hs, hlt, a, b, ha, hb, he⟩ | ⟨hs, heq, he⟩
  · rw [he] at ht
    injection ht with ht
    injection ht with ht1 ht2
    subst ht1
    exact hO
  · rw [he] at ht
    injection ht with ht
    have hj1 : (s.sj + 1).toNat = s.sj.toNat + 1 := by omega
    have hlb : s.sj.toNat + 1 < s.bars.length := getElem?_lt _ _ _ hb
    split at ht
    · rename_i hab
      injection ht with ht1 ht2
      subst ht1
      constructor
      · intro p q x y hpq hq hx hy
        simp only at hx hy hq
        rw [getElem?_swap _ _ _ _ _ hlb] at hx hy
        have hqN : q < s.bars.length := by
          by_contra hc
          rw [if_neg (by omega), if_neg (by omega), List.getElem?_eq_none (by omega)] at hy
          exact Option.noConfusion hy
        rw [hI.lenB] at hqN
        rw [if_neg (by omega), if_neg (by omega)] at hy
        by_cases hp1 : p = s.sj.toNat
        · rw [if_pos hp1] at hx
          injection hx with hx
          subst hx
          exact hO.suffix (s.sj.toNat + 1) q _ _ (by omega) hq hb hy
        · rw [if_neg hp1] at hx
          by_cases hp2 : p = s.sj.toNat + 1
          · rw [if_pos hp2] at hx
            injection hx with hx
            subst hx
            exact hO.suffix s.sj.toNat q _ _ (by omega) hq ha hy
          · rw [if_neg hp2] at hx
            exact hO.suffix p q _ _ hpq hq hx hy
      · intro p x y hp hx hy
        simp only [hj1] at hx hy hp
        rw [getElem?_swap _ _ _ _ _ hlb] at hx hy
        rw [if_neg (by omega), if_pos rfl] at hy
        injection hy with hy
        subst hy
        by_cases hp1 : p = s.sj.toNat
        · rw [if_pos hp1] at hx
          injection hx with hx
          subst hx
          omega
        · rw [if_neg hp1] at hx
          by_cases hp2 : p = s.sj.toNat + 1
          · rw [if_pos hp2] at hx
            injection hx with hx
            subst hx
            exact le_refl _
          · rw [if_neg hp2] at hx
            exact hO.belowMax p x _ (by omega) hx ha
    · rename_i hab
      injection ht with ht1 ht2
      subst ht1
      constructor
      · exact hO.suffix
      · intro p x y hp hx hy
        simp only [hj1] at hx hy hp
        rw [hb] at hy
        injection hy with hy
        subst hy
        by_cases hp2 : p = s.sj.toNat + 1
        · subst hp2
          rw [hb] at hx
          injection hx with hx
          omega
        · have := hO.belowMax p x a (by omega) hx ha
          omega
  · rw [he] at ht
    injection ht with ht
    have hi1 : (s.si + 1).toNat = s.si.toNat + 1 := by omega
    have key : ∀ fl so, Ordered N
        { bars := s.bars, sorted := so, si := s.si + 1, sj := 0, sorting := fl } := by
      intro fl so
      constructor
      · intro p q x y hpq hq hx hy
        simp only [hi1] at hq hx hy
        by_cases hq2 : N ≤ q + s.si.toNat
        · exact hO.suffix p q x y hpq hq2 hx hy
        · have hqj : q = s.sj.toNat := by omega
          subst hqj
          exact hO.belowMax p x y (by omega) hx hy
      · intro p x y hp hx hy
        simp only at hp hx hy
        have : p = 0 := by simpa using hp
        subst this
        simp only [Int.toNat_zero] at hy
        rw [hx] at hy
        injection hy with hy
        omega
    split at ht
    · injection ht with ht1 ht2
      subst ht1
      exact key _ _
    · injection ht with ht1 ht2
      subst ht1
      exact key _ _

/-- At `DONE` the order invariant says that `bars` is non-decreasing. -/
theorem ordered_done (N : Nat) (s : State) (h1 : 1 ≤ N) (hI : Inv N s) (hO : Ordered N s)
    (hs : s.sorting = false) : s.bars.Sorted (· ≤ ·) := by
  unfold List.Sorted
  rw [List.pairwise_iff_getElem]
  intro p q hp hq hpq
  obtain ⟨_, hd2, hd1⟩ := hI.done hs
  have hlen := hI.lenB
  have h2 : 2 ≤ N := by omega
  have := hd2 h2
  exact hO.suffix p q _ _ hpq (by omega) (List.getElem?_eq_getElem hp)
    (List.getElem?_eq_getElem hq)

/-! ### `num_bars = 0` -/

theorem tick_zero (s : State) (hs : s.sorting = true) (hb : s.bars = []) (hi : s.si = 0)
    (hj : s.sj = 0) : tick 0 s = .error .outOfRange := by
  unfold tick
  rw [if_pos hs, hi, hj, hb]
  rfl

theorem ticks_zero (bars0 : List Int) (hlen : bars0.length = 0) :
    ∀ n s tr, ticks 0 n (init 0 bars0) = .ok (s, tr) → s = init 0 bars0 ∧ n = 0 := by
  have hb : bars0 = [] := List.length_eq_zero.mp hlen
  subst hb
  intro n
  induction n with
  | zero =>
    intro s tr h
    simp only [ticks] at h
    injection h with h
    injection h with h1 _
    exact ⟨h1.symm, rfl⟩
  | succ n ih =>
    intro s tr h
    obtain ⟨s1, tr1, st, e1, e2, _⟩ := ticks_succ_inv 0 n _ s tr h
    obtain ⟨e, _⟩ := ih s1 tr1 e1
    subst e
    rw [tick_zero (init 0 []) rfl rfl rfl rfl] at e2
    exact Except.noConfusion e2

/-! ### The animation loop -/

theorem animLoop_length (x1 x2 : ℚ) (sj : Int) :
    ∀ (clock : List Int) (polls : List (List Event)) (w : Window) (fs : List Frame),
      fs.length ≤ (animLoop x1 x2 sj clock polls w fs).frames.length
  | [], _, _, _ => by simp [animLoop]
  | [g], _, _, _ => by
    simp only [animLoop]
    split <;> exact le_refl _
  | g :: e :: clock, polls, w, fs => by
    simp only [animLoop]
    split
    · have := animLoop_length x1 x2 sj clock polls.tail
        { isOpen := (pollAnim w (polls.headD [])).isOpen,
          calls := (pollAnim w (polls.headD [])).calls ++
            [.clear, .drawBars sj (sj + 1) (x1 + (x2 - x1) * ((e : ℚ) / duration))
              (x2 - (x2 - x1) * ((e : ℚ) / duration)), .display] }
        (fs ++ [⟨e, (e : ℚ) / duration, x1 + (x2 - x1) * ((e : ℚ) / duration),
          x2 - (x2 - x1) * ((e : ℚ) / duration)⟩])
      simp only [List.length_append, List.length_singleton] at this
      omega
    · exact le_refl _

/-- Every frame the loop adds has `t = elapsed / duration` for a reading `elapsed` of
the clock, and the two positions of lines 145-146. -/
theorem animLoop_frames (x1 x2 : ℚ) (sj : Int) :
    ∀ (clock : List Int) (polls : List (List Event)) (w : Window) (fs : List Frame),
      ∀ f ∈ (animLoop x1 x2 sj clock polls w fs).frames,
        f ∈ fs ∨ (f.elapsed ∈ clock ∧ f.t = (f.elapsed : ℚ) / duration ∧
          f.currentX1 = x1 + (x2 - x1) * f.t ∧ f.currentX2 = x2 - (x2 - x1) * f.t)
  | [], _, _, _ => by
    intro f hf
    exact Or.inl (by simpa [animLoop] using hf)
  | [g], _, _, fs => by
    intro f hf
    simp only [animLoop] at hf
    split at hf <;> exact Or.inl hf
  | g :: e :: clock, polls, w, fs => by
    intro f hf
    simp only [animLoop] at hf
    split at hf
    · rcases animLoop_frames x1 x2 sj clock _ _ _ f hf with h1 | ⟨h1, h2⟩
      · rcases List.mem_append.mp h1 with h1 | h1
        · exact Or.inl h1
        · have : f = ⟨e, (e : ℚ) / duration, x1 + (x2 - x1) * ((e : ℚ) / duration),
              x2 - (x2 - x1) * ((e : ℚ) / duration)⟩ := by simpa using h1
          subst this
          exact Or.inr ⟨by simp, rfl, rfl, rfl⟩
      · exact Or.inr ⟨by simp [h1], h2⟩
    · exact Or.inl hf

theorem pollAnim_closed (evs : List Event) :
    ∀ w : Window, (w.isOpen = false ∨ Event.closed ∈ evs) → (pollAnim w evs).isOpen = false := by
  induction evs with
  | nil =>
    intro w h
    rcases h with h | h
    · exact h
    · simp at h
  | cons e evs ih =>
    intro w h
    cases e with
    | closed => exact ih _ (Or.inl rfl)
    | resized =>
      refine ih w ?_
      rcases h with h | h
      · exact Or.inl h
      · simp at h; exact Or.inr h
    | other =>
      refine ih w ?_
      rcases h with h | h
      · exact Or.inl h
      · simp at h; exact Or.inr h

/-- The passes of the loop and its end are fixed by the clock alone: with other pending
events and another window the same frames come out. -/
theorem animLoop_frames_indep (x1 x2 : ℚ) (sj : Int) :
    ∀ (clock : List Int) (polls polls' : List (List Event)) (w w' : Window)
      (fs : List Frame),
      (animLoop x1 x2 sj clock polls' w' fs).frames =
        (animLoop x1 x2 sj clock polls w fs).frames ∧
      (animLoop x1 x2 sj clock polls' w' fs).finished =
        (animLoop x1 x2 sj clock polls w fs).finished
  | [], _, _, _, _, _ => by simp [animLoop]
  | [g], _, _, _, _, _ => by
    simp only [animLoop]
    split <;> exact ⟨rfl, rfl⟩
  | g :: e :: clock, polls, polls', w, w', fs => by
    simp only [animLoop]
    split
    · exact animLoop_frames_indep x1 x2 sj clock _ _ _ _ _
    · exact ⟨rfl, rfl⟩

/-- A window closed before the loop or in one of its passes is closed afterwards. -/
theorem animLoop_closed (x1 x2 : ℚ) (sj : Int) :
    ∀ (clock : List Int) (polls : List (List Event)) (w : Window) (fs : List Frame),
      (w.isOpen = false ∨
        ∃ evs ∈ polls.take ((animLoop x1 x2 sj clock polls w fs).frames.length - fs.length),
          Event.closed ∈ evs) →
      (animLoop x1 x2 sj clock polls w fs).window.isOpen = false
  | [], polls, w, fs => by
    intro hc
    simp only [animLoop] at hc ⊢
    rcases hc with hc | ⟨evs, hm, _⟩
    · exact hc
    · simp at hm
  | [g], polls, w, fs => by
    intro hc
    simp only [animLoop] at hc ⊢
    split at hc <;> rename_i hg
    · rw [if_pos hg]
      rcases hc with hc | ⟨evs, hm, _⟩
      · exact hc
      · simp at hm
    · rw [if_neg hg]
      rcases hc with hc | ⟨evs, hm, _⟩
      · exact hc
      · simp at hm
  | g :: e :: clock, polls, w, fs => by
    intro hc
    simp only [animLoop] at hc ⊢
    split at hc <;> rename_i hg
    · rw [if_pos hg]
      have hlen := animLoop_length x1 x2 sj clock polls.tail
        { isOpen := (pollAnim w (polls.headD [])).isOpen,
          calls := (pollAnim w (polls.headD [])).calls ++
            [.clear, .drawBars sj (sj + 1) (x1 + (x2 - x1) * ((e : ℚ) / duration))
              (x2 - (x2 - x1) * ((e : ℚ) / duration)), .display] }
        (fs ++ [⟨e, (e : ℚ) / duration, x1 + (x2 - x1) * ((e : ℚ) / duration),
          x2 - (x2 - x1) * ((e : ℚ) / duration)⟩])
      refine animLoop_closed x1 x2 sj clock _ _ _ ?_
      rcases hc with hc | ⟨evs, hm, hcl⟩
      · exact Or.inl (pollAnim_closed _ _ (Or.inl hc))
      · cases polls with
        | nil => simp at hm
        | cons p ps =>
          simp only [List.length_append, List.length_singleton] at hlen
          generalize hL : (animLoop x1 x2 sj clock (p :: ps).tail _ _).frames.length = L
            at hm hlen ⊢
          have e1 : L - fs.length = (L - (fs.length + 1)) + 1 := by omega
          rw [e1, List.take_succ_cons] at hm
          rcases List.mem_cons.mp hm with hm | hm
          · subst hm
            exact Or.inl (pollAnim_closed _ _ (Or.inr hcl))
          · refine Or.inr ⟨evs, ?_, hcl⟩
            simpa using hm
    · rw [if_neg hg]
      rcases hc with hc | ⟨evs, hm, _⟩
      · exact hc
      · simp at hm

/-- The loop ends once a reading taken for its guard is 500 ms or more. -/
theorem animLoop_finished (x1 x2 : ℚ) (sj : Int) :
    ∀ (clock : List Int) (polls : List (List Event)) (w : Window) (fs : List Frame),
      (∃ k g, clock[2 * k]? = some g ∧ 500 ≤ g) →
      (animLoop x1 x2 sj clock polls w fs).finished = true
  | [], _, _, _ => by
    rintro ⟨k, g, h, _⟩
    simp at h
  | [g], _, _, _ => by
    rintro ⟨k, g', h, hg⟩
    have hk : k = 0 := by
      have := getElem?_lt _ _ _ h
      simp at this
      omega
    subst hk
    simp at h
    subst h
    have : ¬ ((g : ℚ) < duration) := by
      unfold duration
      have : (500 : ℚ) ≤ (g : ℚ) := by exact_mod_cast hg
      linarith
    simp only [animLoop, if_neg this]
  | g :: e :: clock, polls, w, fs => by
    rintro ⟨k, g', h, hg⟩
    simp only [animLoop]
    split
    · rename_i hlt
      cases k with
      | zero =>
        simp at h
        subst h
        unfold duration at hlt
        have : (500 : ℚ) ≤ (g : ℚ) := by exact_mod_cast hg
        linarith
      | succ k =>
        refine animLoop_finished x1 x2 sj clock _ _ _ ⟨k, g', ?_, hg⟩
        have e2 : 2 * (k + 1) = 2 * k + 1 + 1 := by omega
        rw [e2, List.getElem?_cons_succ, List.getElem?_cons_succ] at h
        exact h
    · rfl

/-- The poll of a pass only adds `close` calls, at least one when a `Closed` event is
pending. -/
theorem pollAnim_calls (evs : List Event) :
    ∀ w : Window, ∃ c, (pollAnim w evs).calls = w.calls ++ c ∧
      (∀ x ∈ c, x = Call.close) ∧ (Event.closed ∈ evs → Call.close ∈ c) := by
  induction evs with
  | nil =>
    intro w
    exact ⟨[], by simp [pollAnim], by simp, by simp⟩
  | cons e evs ih =>
    intro w
    cases e with
    | closed =>
      obtain ⟨c, h1, h2, _⟩ := ih { isOpen := false, calls := w.calls ++ [.close] }
      refine ⟨.close :: c, ?_, ?_, fun _ => by simp⟩
      · simp only [pollAnim, h1]
        simp
      · intro x hx
        rcases List.mem_cons.mp hx with hx | hx
        · exact hx
        · exact h2 x hx
    | resized =>
      obtain ⟨c, h1, h2, h3⟩ := ih w
      exact ⟨c, by simpa [pollAnim] using h1, h2, fun h => h3 (by simpa using h)⟩
    | other =>
      obtain ⟨c, h1, h2, h3⟩ := ih w
      exact ⟨c, by simpa [pollAnim] using h1, h2, fun h => h3 (by simpa using h)⟩

/-- The loop only appends to the calls made on the window. -/
theorem animLoop_calls_prefix (x1 x2 : ℚ) (sj : Int) :
    ∀ (clock : List Int) (polls : List (List Event)) (w : Window) (fs : List Frame),
      ∃ rest, (animLoop x1 x2 sj clock polls w fs).window.calls = w.calls ++ rest
  | [], _, _, _ => ⟨[], by simp [animLoop]⟩
  | [g], _, _, _ => by
    simp only [animLoop]
    split <;> exact ⟨[], by simp⟩
  | g :: e :: clock, polls, w, fs => by
    simp only [animLoop]
    split
    · obtain ⟨c, hc, _, _⟩ := pollAnim_calls (polls.headD []) w
      obtain ⟨rest, hr⟩ := animLoop_calls_prefix x1 x2 sj clock polls.tail
        { isOpen := (pollAnim w (polls.headD [])).isOpen,
          calls := (pollAnim w (polls.headD [])).calls ++
            [.clear, .drawBars sj (sj + 1) (x1 + (x2 - x1) * ((e : ℚ) / duration))
              (x2 - (x2 - x1) * ((e : ℚ) / duration)), .display] }
        (fs ++ [⟨e, (e : ℚ) / duration, x1 + (x2 - x1) * ((e : ℚ) / duration),
          x2 - (x2 - x1) * ((e : ℚ) / duration)⟩])
      refine ⟨c ++ [.clear, .drawBars sj (sj + 1) (x1 + (x2 - x1) * ((e : ℚ) / duration))
        (x2 - (x2 - x1) * ((e : ℚ) / duration)), .display] ++ rest, ?_⟩
      rw [hr, hc]
      simp only [List.append_assoc]
    · exact ⟨[], by simp⟩

/-- The passes of the loop, one by one.  Pass `i` is made after a guard reading
`clock[2 i]` below 500 ms; its frame is computed from the next reading `clock[2 i + 1]`
by lines 144-146; and the pass issues `clear`, `drawBars` with the two positions of the
frame, `display`, after the `i` displays of the earlier passes and after the `close` of
any `Closed` event polled up to this pass. -/
theorem animLoop_passes (x1 x2 : ℚ) (sj : Int) :
    ∀ (clock : List Int) (polls : List (List Event)) (w : Window) (fs : List Frame),
      ∃ new : List Frame,
        (animLoop x1 x2 sj clock polls w fs).frames = fs ++ new ∧
        ∀ i f, new[i]? = some f →
          (∃ g, clock[2 * i]? = some g ∧ g < 500) ∧
          clock[2 * i + 1]? = some f.elapsed ∧
          f.t = (f.elapsed : ℚ) / duration ∧
          f.currentX1 = x1 + (x2 - x1) * f.t ∧ f.currentX2 = x2 - (x2 - x1) * f.t ∧
          ∃ pre post,
            (animLoop x1 x2 sj clock polls w fs).window.calls =
              w.calls ++ pre ++
                [.clear, .drawBars sj (sj + 1) f.currentX1 f.currentX2, .display] ++ post ∧
            pre.count Call.display = i ∧
            ((∃ j evs, j ≤ i ∧ polls[j]? = some evs ∧ Event.closed ∈ evs) →
              Call.close ∈ pre)
  | [], _, _, fs => ⟨[], by simp [animLoop], fun i f h => by simp at h⟩
  | [g], _, _, fs => by
    refine ⟨[], ?_, fun i f h => by simp at h⟩
    simp only [animLoop]
    split <;> simp
  | g :: e :: clock, polls, w, fs => by
    simp only [animLoop]
    split
    · rename_i hg
      obtain ⟨c, hc, hcl, hcc⟩ := pollAnim_calls (polls.headD []) w
      obtain ⟨new, hn, hpass⟩ := animLoop_passes x1 x2 sj clock polls.tail
        { isOpen := (pollAnim w (polls.headD [])).isOpen,
          calls := (pollAnim w (polls.headD [])).calls ++
            [.clear, .drawBars sj (sj + 1) (x1 + (x2 - x1) * ((e : ℚ) / duration))
              (x2 - (x2 - x1) * ((e : ℚ) / duration)), .display] }
        (fs ++ [⟨e, (e : ℚ) / duration, x1 + (x2 - x1) * ((e : ℚ) / duration),
          x2 - (x2 - x1) * ((e : ℚ) / duration)⟩])
      obtain ⟨rest, hr⟩ := animLoop_calls_prefix x1 x2 sj clock polls.tail
        { isOpen := (pollAnim w (polls.headD [])).isOpen,
          calls := (pollAnim w (polls.headD [])).calls ++
            [.clear, .drawBars sj (sj + 1) (x1 + (x2 - x1) * ((e : ℚ) / duration))
              (x2 - (x2 - x1) * ((e : ℚ) / duration)), .display] }
        (fs ++ [⟨e, (e : ℚ) / duration, x1 + (x2 - x1) * ((e : ℚ) / duration),
          x2 - (x2 - x1) * ((e : ℚ) / duration)⟩])
      have hcount : c.count Call.display = 0 := by
        rw [List.count_eq_zero]
        intro hm
        exact Call.noConfusion (hcl _ hm)
      have hg' : g < 500 := by
        unfold duration at hg
        exact_mod_cast hg
      refine ⟨⟨e, (e : ℚ) / duration, x1 + (x2 - x1) * ((e : ℚ) / duration),
          x2 - (x2 - x1) * ((e : ℚ) / duration)⟩ :: new, ?_, ?_⟩
      · rw [hn]; simp
      · intro i f hf
        cases i with
        | zero =>
          simp only [List.getElem?_cons_zero, Option.some.injEq] at hf
          subst hf
          refine ⟨⟨g, by simp, hg'⟩, by simp, rfl, rfl, rfl, c, rest, ?_, hcount, ?_⟩
          · rw [hr, hc]
          · rintro ⟨j, evs, hj, hp, hcl'⟩
            have hj0 : j = 0 := by omega
            subst hj0
            apply hcc
            cases polls with
            | nil => simp at hp
            | cons p ps =>
              simp only [List.getElem?_cons_zero, Option.some.injEq] at hp
              subst hp
              simpa using hcl'
        | succ i =>
          simp only [List.getElem?_cons_succ] at hf
          obtain ⟨⟨g', hg1, hg2⟩, he, ht, hx1, hx2, pre, post, hcalls, hcnt, hclose⟩ :=
            hpass i f hf
          have e1 : 2 * (i + 1) = 2 * i + 1 + 1 := by omega
          have e2 : 2 * (i + 1) + 1 = (2 * i + 1) + 1 + 1 := by omega
          refine ⟨⟨g', ?_, hg2⟩, ?_, ht, hx1, hx2,
            c ++ [.clear, .drawBars sj (sj + 1) (x1 + (x2 - x1) * ((e : ℚ) / duration))
              (x2 - (x2 - x1) * ((e : ℚ) / duration)), .display] ++ pre, post, ?_, ?_, ?_⟩
          · rw [e1, List.getElem?_cons_succ, List.getElem?_cons_succ]
            exact hg1
          · rw [e2, List.getElem?_cons_succ, List.getElem?_cons_succ]
            exact he
          · rw [hcalls, hc]
            simp only [List.append_assoc]
          · rw [List.count_append, List.count_append, hcount, hcnt]
            simp [List.count_cons]
            omega
          · rintro ⟨j, evs, hj, hp, hcl'⟩
            cases j with
            | zero =>
              have : Call.close ∈ c := by
                apply hcc
                cases polls with
                | nil => simp at hp
                | cons p ps =>
                  simp only [List.getElem?_cons_zero, Option.some.injEq] at hp
                  subst hp
                  simpa using hcl'
              simp [this]
            | succ j =>
              have : Call.close ∈ pre := by
                apply hclose
                refine ⟨j, evs, by omega, ?_, hcl'⟩
                cases polls with
                | nil => simp at hp
                | cons p ps => simpa using hp
              simp [this]
    · exact ⟨[], by simp, fun i f h => by simp at h⟩

/-! ### Consequences used by several results -/

theorem swapBars_eq (bars : List Int) (sj : Int) (a b : Int) (h0 : 0 ≤ sj)
    (hmax : sj < INT_MAX) (ha : bars[sj.toNat]? = some a) (hb : bars[sj.toNat + 1]? = some b) :
    swapBars bars sj = .ok ((bars.set sj.toNat b).set (sj.toNat + 1) a) := by
  have hj1 : (sj + 1).toNat = sj.toNat + 1 := by omega
  have hla := getElem?_lt _ _ _ ha
  have hlb := getElem?_lt _ _ _ hb
  have hinc : incr sj = .ok (sj + 1) := by unfold incr; rw [if_pos hmax]
  have hga : vecGet bars sj = .ok a := by unfold vecGet; rw [if_pos h0, ha]
  have hgb : vecGet bars (sj + 1) = .ok b := by
    unfold vecGet; rw [if_pos (by omega), hj1, hb]
  have hs1 : vecSet bars sj b = .ok (bars.set sj.toNat b) := by
    unfold vecSet; rw [if_pos ⟨h0, hla⟩]
  have hs2 : vecSet (bars.set sj.toNat b) (sj + 1) a
      = .ok ((bars.set sj.toNat b).set (sj.toNat + 1) a) := by
    unfold vecSet; rw [if_pos ⟨by omega, by rw [List.length_set]; omega⟩, hj1]
  unfold swapBars
  rw [hga, hinc]
  simp only [hgb, hs1, hs2]

theorem busy_lt (N n : Nat) (s : State) (tr : List Step) (hI : Inv N s)
    (hP : Progress N n s tr) (hs : s.sorting = true) :
    (2 ≤ N → n < passStart N (N - 1)) ∧ (N = 1 → n = 0) := by
  obtain ⟨p1, _, _, _⟩ := hP.busy hs
  obtain ⟨b1, b2⟩ := hI.busy hs
  have hi := hI.si0
  have hj := hI.sj0
  constructor
  · intro h2
    have := b2 h2
    have hm := passStart_mono N s.si.toNat (N - 1) (by omega)
    omega
  · intro h1
    subst h1
    have e1 : s.si.toNat = 0 := by omega
    have e2 : s.sj.toNat = 0 := by omega
    rw [e1, e2] at p1
    simpa [passStart] using p1

/-- From `init` with `1 ≤ N ≤ INT_MAX` the machine is at `DONE` after
`passStart N (N - 1) + 1` ticks. -/
theorem reach_done (N : Nat) (bars0 : List Int) (h1 : 1 ≤ N) (hN : (N : Int) ≤ INT_MAX)
    (hlen : bars0.length = N) :
    ∃ s tr, ticks N (passStart N (N - 1) + 1) (init N bars0) = .ok (s, tr) ∧
      s.sorting = false := by
  obtain ⟨s, tr, ht, _⟩ := ticks_total N h1 hN (passStart N (N - 1) + 1) (init N bars0)
    (inv_init N bars0 h1 hlen)
  obtain ⟨hI, hP⟩ := progress_ticks N bars0 h1 hN hlen _ s tr ht
  refine ⟨s, tr, ht, ?_⟩
  rcases Bool.eq_false_or_eq_true s.sorting with hs | hs
  · obtain ⟨c1, c2⟩ := busy_lt N _ s tr hI hP hs
    by_cases h2 : 2 ≤ N
    · have := c1 h2; omega
    · have := c2 (by omega); omega
  · exact hs

theorem ordered_ticks (N : Nat) (bars0 : List Int) (h1 : 1 ≤ N) (hN : (N : Int) ≤ INT_MAX)
    (hlen : bars0.length = N) (n : Nat) (s : State) (tr : List Step)
    (h : ticks N n (init N bars0) = .ok (s, tr)) : Inv N s ∧ Ordered N s :=
  ticks_preserve N (fun s => Inv N s ∧ Ordered N s)
    (fun a b st ha hab =>
      ⟨inv_tick N a b st h1 hN ha.1 hab, ordered_tick N a b st h1 hN ha.1 ha.2 hab⟩)
    n (init N bars0) s tr ⟨inv_init N bars0 h1 hlen, ordered_init N bars0 hlen⟩ h

theorem sorted_adj (l : List Int) (j : Nat) (a b : Int) (hs : l.Sorted (· ≤ ·))
    (ha : l[j]? = some a) (hb : l[j + 1]? = some b) : a ≤ b := by
  obtain ⟨h1, e1⟩ := List.getElem?_eq_some.mp ha
  obtain ⟨h2, e2⟩ := List.getElem?_eq_some.mp hb
  have := (List.pairwise_iff_getElem.mp hs) j (j + 1) h1 h2 (by omega)
  rw [e1, e2] at this
  exact this

theorem swapCount_le (tr : List Step) : swapCount tr ≤ compareCount tr := by
  unfold swapCount compareCount
  apply List.countP_mono_left
  intro x _ hx
  cases x with
  | compare j b => rfl
  | finalize ks => simp at hx
  | idle => simp at hx

theorem count_descending (N k : Nat) (hk : k < N) :
    ((List.range N).map (fun i => N - 1 - i)).count k = 1 := by
  have h : (List.range N).map (fun i => N - 1 - i) = (List.range N).reverse := by
    have := List.reverse_range' 0 N
    rw [← List.range_eq_range'] at this
    simpa using this.symm
  rw [h, List.count_reverse]
  exact List.count_eq_one_of_mem (List.nodup_range N) (List.mem_range.mpr hk)

/-! ## Results -/

/-- C1, at `N = 0`: the guard `sj < num_bars - si - 1` is `0 < 4294967295`, the first
tick reads `bars[0]` of an empty vector, and no run of the machine reaches `DONE`. -/
theorem sort_never_done_zero :
    ticks 0 1 (init 0 []) = .error .outOfRange ∧
    ¬ ∃ n s tr, ticks 0 n (init 0 []) = .ok (s, tr) ∧ s.sorting = false := by
  refine ⟨rfl, ?_⟩
  rintro ⟨n, s, tr, h, hs⟩
  obtain ⟨e, _⟩ := ticks_zero [] rfl n s tr h
  rw [e] at hs
  exact Bool.noConfusion hs

/-- C1 (amended to `1 ≤ N`, with `N` in the range of `int`): for every initial sequence
of length `N` the machine started at line 103 reaches `DONE`, and `bars` is
non-decreasing in every `DONE` state it reaches; on `[3, 1, 2]` it makes the five ticks
of the scenario and ends with `[1, 2, 3]`. -/
theorem sort_done_sorted (N : Nat) (bars0 : List Int) (h1 : 1 ≤ N)
    (hN : (N : Int) ≤ INT_MAX) (hlen : bars0.length = N) :
    (∃ n s tr, ticks N n (init N bars0) = .ok (s, tr) ∧ s.sorting = false) ∧
    (∀ n s tr, ticks N n (init N bars0) = .ok (s, tr) → s.sorting = false →
      s.bars.Sorted (· ≤ ·)) ∧
    ticks 3 5 (init 3 [3, 1, 2]) =
      .ok (⟨[1, 2, 3], [true, true, true], 2, 0, false⟩,
        [.compare 0 true, .compare 1 true, .finalize [2], .compare 0 false,
         .finalize [1, 0]]) := by
  refine ⟨?_, ?_, rfl⟩
  · obtain ⟨s, tr, ht, hs⟩ := reach_done N bars0 h1 hN hlen
    exact ⟨_, s, tr, ht, hs⟩
  · intro n s tr h hs
    obtain ⟨hI, hO⟩ := ordered_ticks N bars0 h1 hN hlen n s tr h
    exact ordered_done N s h1 hI hO hs

theorem sort_done_sorted_witness :
    (1 ≤ 4 ∧ (4 : Int) ≤ INT_MAX ∧ [7, 7, 1, 3].length = 4) ∧
    (∃ n s tr, ticks 4 n (init 4 [7, 7, 1, 3]) = .ok (s, tr) ∧ s.sorting = false) ∧
    (∀ n s tr, ticks 4 n (init 4 [7, 7, 1, 3]) = .ok (s, tr) → s.sorting = false →
      s.bars.Sorted (· ≤ ·)) ∧
    ticks 3 5 (init 3 [3, 1, 2]) =
      .ok (⟨[1, 2, 3], [true, true, true], 2, 0, false⟩,
        [.compare 0 true, .compare 1 true, .finalize [2], .compare 0 false,
         .finalize [1, 0]]) :=
  ⟨⟨by decide, by decide, rfl⟩,
   sort_done_sorted 4 [7, 7, 1, 3] (by decide) (by decide) rfl⟩

/-- C2: a tick leaves `bars` as it is or exchanges the adjacent pair `bars[sj]`,
`bars[sj + 1]`, so in every state reachable from line 103 `bars` has length `N` and is
a permutation of the initial sequence. -/
theorem bars_only_swapped (N : Nat) (bars0 : List Int) (hlen : bars0.length = N) :
    (∀ s s' st, tick N s = .ok (s', st) →
      s'.bars = s.bars ∨
      ∃ a b, 0 ≤ s.sj ∧ s.bars[s.sj.toNat]? = some a ∧ s.bars[s.sj.toNat + 1]? = some b ∧
        s'.bars = (s.bars.set s.sj.toNat b).set (s.sj.toNat + 1) a) ∧
    (∀ s, Reachable N bars0 s → s.bars.length = N ∧ s.bars.Perm bars0) := by
  constructor
  · intro s s' st h
    rcases tick_bars N s s' st h with ⟨h1, _⟩ | ⟨a, b, h0, ha, hb, _, e, _⟩
    · exact Or.inl h1
    · exact Or.inr ⟨a, b, h0, ha, hb, e⟩
  · intro s ⟨n, tr, h⟩
    refine ticks_preserve N (fun s => s.bars.length = N ∧ s.bars.Perm bars0) ?_ n
      (init N bars0) s tr ⟨hlen, List.Perm.refl _⟩ h
    intro a b st ⟨hl, hp⟩ hab
    rcases tick_bars N a b st hab with ⟨h1, _⟩ | ⟨x, y, _, hx, hy, _, e, _⟩
    · rw [h1]; exact ⟨hl, hp⟩
    · rw [e]
      exact ⟨by simp [hl], (swap_perm a.bars _ x y hx hy).trans hp⟩

theorem bars_only_swapped_witness :
    [3, 1, 2].length = 3 ∧
    (∀ s s' st, tick 3 s = .ok (s', st) →
      s'.bars = s.bars ∨
      ∃ a b, 0 ≤ s.sj ∧ s.bars[s.sj.toNat]? = some a ∧ s.bars[s.sj.toNat + 1]? = some b ∧
        s'.bars = (s.bars.set s.sj.toNat b).set (s.sj.toNat + 1) a) ∧
    (∀ s, Reachable 3 [3, 1, 2] s → s.bars.length = 3 ∧ s.bars.Perm [3, 1, 2]) :=
  ⟨rfl, bars_only_swapped 3 [3, 1, 2] rfl⟩

/-- C3, at `N = 1`: the only tick of the run takes the finalize branch with `sj = 0`
and `si + 1 >= num_bars - 1`, so it writes `sorted[0] = true` twice: two finalization
writes, not one. -/
theorem finalize_twice_one :
    ∃ s tr, ticks 1 1 (init 1 [5]) = .ok (s, tr) ∧ s.sorting = false ∧
      writes tr = [0, 0] ∧ (writes tr).length ≠ 1 ∧ (writes tr).count 0 ≠ 1 :=
  ⟨_, _, rfl, rfl, rfl, by decide, by decide⟩

/-- C3 (amended to `N ≠ 1`): for `N` in the range of `int`, a run from line 103 with
`1 ≤ N` reaches `DONE`; in every `DONE` state reached all `N` flags of `sorted` are
true; for `N ≠ 1` the writes `sorted[k] = true` of the run are exactly `N`, one for
each index below `N`; for `N = 1` they are the two writes to index 0. -/
theorem finalized_once_each (N : Nat) (bars0 : List Int) (hN : (N : Int) ≤ INT_MAX)
    (hlen : bars0.length = N) :
    (1 ≤ N → ∃ n s tr, ticks N n (init N bars0) = .ok (s, tr) ∧ s.sorting = false) ∧
    (∀ n s tr, ticks N n (init N bars0) = .ok (s, tr) → s.sorting = false →
      (s.sorted.length = N ∧ ∀ k, k < N → s.sorted[k]? = some true) ∧
      (N ≠ 1 → (writes tr).length = N ∧ ∀ k, k < N → (writes tr).count k = 1) ∧
      (N = 1 → writes tr = [0, 0])) := by
  constructor
  · intro h1
    obtain ⟨s, tr, ht, hs⟩ := reach_done N bars0 h1 hN hlen
    exact ⟨_, s, tr, ht, hs⟩
  · intro n s tr h hs
    by_cases h0 : N = 0
    · subst h0
      obtain ⟨e, _⟩ := ticks_zero bars0 hlen n s tr h
      rw [e] at hs
      exact Bool.noConfusion hs
    · obtain ⟨hI, hP⟩ := progress_ticks N bars0 (by omega) hN hlen n s tr h
      refine ⟨⟨hI.lenS, hI.flagsDone hs⟩, ?_, ?_⟩
      · intro hne
        obtain ⟨_, _, _, hw⟩ := hP.done2 hs (by omega)
        rw [hw]
        exact ⟨by simp, fun k hk => count_descending N k hk⟩
      · intro h1
        exact (hP.done1 hs h1).2.2.2

theorem finalized_once_each_witness :
    ((3 : Int) ≤ INT_MAX ∧ [3, 1, 2].length = 3) ∧
    (1 ≤ 3 → ∃ n s tr, ticks 3 n (init 3 [3, 1, 2]) = .ok (s, tr) ∧ s.sorting = false) ∧
    (∀ n s tr, ticks 3 n (init 3 [3, 1, 2]) = .ok (s, tr) → s.sorting = false →
      (s.sorted.length = 3 ∧ ∀ k, k < 3 → s.sorted[k]? = some true) ∧
      (3 ≠ 1 → (writes tr).length = 3 ∧ ∀ k, k < 3 → (writes tr).count k = 1) ∧
      (3 = 1 → writes tr = [0, 0])) :=
  ⟨⟨by decide, rfl⟩, finalized_once_each 3 [3, 1, 2] (by decide) rfl⟩

/-- C5: in a run from line 103 (`N` in the range of `int`), once `sorted[k]` is true in
a state, any number of further ticks succeed and lead to a state where `sorted[k]` is
true and `bars[k]` has the same value, and none of these ticks compares position `k`
(neither as `sj` nor as `sj + 1`). -/
theorem finalized_frozen (N : Nat) (bars0 : List Int) (hN : (N : Int) ≤ INT_MAX)
    (hlen : bars0.length = N) (s : State) (k : Nat) (hr : Reachable N bars0 s)
    (hk : s.sorted[k]? = some true) :
    ∀ m, ∃ s' tr, ticks N m s = .ok (s', tr) ∧
      s'.sorted[k]? = some true ∧ s'.bars[k]? = s.bars[k]? ∧
      ∀ j sw, Step.compare j sw ∈ tr → j ≠ k ∧ j + 1 ≠ k := by
  obtain ⟨n0, tr0, h0⟩ := hr
  by_cases hz : N = 0
  · subst hz
    obtain ⟨e, _⟩ := ticks_zero bars0 hlen n0 s tr0 h0
    rw [e] at hk
    simp [init] at hk
  have h1 : 1 ≤ N := by omega
  have hI0 : Inv N s := (progress_ticks N bars0 h1 hN hlen n0 s tr0 h0).1
  suffices hgen : ∀ m s' tr, ticks N m s = .ok (s', tr) →
      Inv N s' ∧ s'.sorted[k]? = some true ∧ s'.bars[k]? = s.bars[k]? ∧
      ∀ j sw, Step.compare j sw ∈ tr → j ≠ k ∧ j + 1 ≠ k from
    fun m => by
      obtain ⟨s', tr, ht, _⟩ := ticks_total N h1 hN m s hI0
      exact ⟨s', tr, ht, (hgen m s' tr ht).2⟩
  intro m
  induction m with
  | zero =>
    intro s' tr h
    simp only [ticks] at h
    injection h with h
    injection h with e1 e2
    subst e1; subst e2
    exact ⟨hI0, hk, rfl, fun j sw hm => by simp at hm⟩
  | succ m ih =>
    intro s' tr h
    obtain ⟨s1, tr1, st, e1, e2, e3⟩ := ticks_succ_inv N m s s' tr h
    obtain ⟨hI, hf, hb, hc⟩ := ih s1 tr1 e1
    subst e3
    have hI' := inv_tick N s1 s' st h1 hN hI e2
    have hkN : k < N := by
      have := getElem?_lt _ _ _ hf
      rw [hI.lenS] at this
      exact this
    have hi := hI.si0
    have hj := hI.sj0
    have hmem : ∀ j sw, (∀ j' sw', st = Step.compare j' sw' → j' ≠ k ∧ j' + 1 ≠ k) →
        Step.compare j sw ∈ tr1 ++ [st] → j ≠ k ∧ j + 1 ≠ k := by
      intro j sw hst hm
      rcases List.mem_append.mp hm with hm | hm
      · exact hc j sw hm
      · have : Step.compare j sw = st := by simpa using hm
        exact hst j sw this.symm
    rcases tick_cases N s1 h1 hN hI with ⟨hs, he⟩ | ⟨hs, hlt, a, b, ha, hb', he⟩ | ⟨hs, heq, he⟩
    · rw [he] at e2
      injection e2 with e2
      injection e2 with e2a e2b
      subst e2a; subst e2b
      exact ⟨hI', hf, hb, fun j sw hm => hmem j sw (fun _ _ hc => Step.noConfusion hc) hm⟩
    · rw [he] at e2
      injection e2 with e2
      have hfl := hI.flagsBusy hs k hkN
      rw [hf] at hfl
      have hkk : N ≤ k + s1.si.toNat := by simpa using hfl
      have hne1 : k ≠ s1.sj.toNat := by omega
      have hne2 : k ≠ s1.sj.toNat + 1 := by omega
      have hlb : s1.sj.toNat + 1 < s1.bars.length := getElem?_lt _ _ _ hb'
      have hstep : ∀ sw j' sw', Step.compare s1.sj.toNat sw = Step.compare j' sw' →
          j' ≠ k ∧ j' + 1 ≠ k := by
        intro sw j' sw' hc
        injection hc with hc1 _
        subst hc1
        exact ⟨fun h => hne1 h.symm, fun h => hne2 h.symm⟩
      split at e2
      · injection e2 with e2a e2b
        subst e2a; subst e2b
        refine ⟨hI', hf, ?_, fun j sw hm => hmem j sw (hstep true) hm⟩
        simp only
        rw [getElem?_swap _ _ _ _ _ hlb, if_neg hne1, if_neg hne2]
        exact hb
      · injection e2 with e2a e2b
        subst e2a; subst e2b
        exact ⟨hI', hf, hb, fun j sw hm => hmem j sw (hstep false) hm⟩
    · rw [he] at e2
      injection e2 with e2
      split at e2
      · injection e2 with e2a e2b
        subst e2a; subst e2b
        refine ⟨hI', ?_, hb, fun j sw hm => hmem j sw (fun _ _ hc => Step.noConfusion hc) hm⟩
        exact hI'.flagsDone rfl k hkN
      · injection e2 with e2a e2b
        subst e2a; subst e2b
        refine ⟨hI', ?_, hb, fun j sw hm => hmem j sw (fun _ _ hc => Step.noConfusion hc) hm⟩
        simp only
        rw [List.getElem?_set]
        by_cases hkj : s1.sj.toNat = k
        · rw [if_pos hkj, if_pos (by rw [hI.lenS]; omega)]
        · rw [if_neg hkj]
          exact hf

theorem finalized_frozen_witness :
    ((3 : Int) ≤ INT_MAX ∧ [3, 1, 2].length = 3 ∧
      Reachable 3 [3, 1, 2] ⟨[1, 2, 3], [false, false, true], 1, 0, true⟩ ∧
      (⟨[1, 2, 3], [false, false, true], 1, 0, true⟩ : State).sorted[2]? = some true) ∧
    ∀ m, ∃ s' tr,
      ticks 3 m ⟨[1, 2, 3], [false, false, true], 1, 0, true⟩ = .ok (s', tr) ∧
      s'.sorted[2]? = some true ∧
      s'.bars[2]? = (⟨[1, 2, 3], [false, false, true], 1, 0, true⟩ : State).bars[2]? ∧
      ∀ j sw, Step.compare j sw ∈ tr → j ≠ 2 ∧ j + 1 ≠ 2 :=
  ⟨⟨by decide, rfl, ⟨3, _, rfl⟩, rfl⟩,
   finalized_frozen 3 [3, 1, 2] (by decide) rfl
     ⟨[1, 2, 3], [false, false, true], 1, 0, true⟩ 2 ⟨3, _, rfl⟩ rfl⟩

/-- C6, at `N = 1`: the single tick of the run ends in the `DONE` state with `si = 1`,
which is not below `N = 1`. -/
theorem index_bound_fails_one :
    Reachable 1 [5] ⟨[5], [true], 1, 0, false⟩ ∧
    ¬ ((⟨[5], [true], 1, 0, false⟩ : State).si < (1 : Nat)) :=
  ⟨⟨1, _, rfl⟩, by decide⟩

/-- C6 (amended: for `N = 1` the bound on `si` holds while `sorting` is true, not in
the `DONE` state): for `1 ≤ N` in the range of `int` and every state reachable from
line 103, the next tick succeeds, so every `bars[sj]`, `bars[sj + 1]`, `sorted[sj]` and
`sorted[0]` it touches is in range and no increment overflows; `0 ≤ si`, `0 ≤ sj`, both
vectors have length `N`; and `si < N`, `sj ≤ N - 1 - si` whenever `2 ≤ N` or `sorting`
is true. -/
theorem indices_in_range (N : Nat) (bars0 : List Int) (h1 : 1 ≤ N)
    (hN : (N : Int) ≤ INT_MAX) (hlen : bars0.length = N) (s : State)
    (hr : Reachable N bars0 s) :
    (∃ s' st, tick N s = .ok (s', st)) ∧
    s.bars.length = N ∧ s.sorted.length = N ∧ 0 ≤ s.si ∧ 0 ≤ s.sj ∧
    ((2 ≤ N ∨ s.sorting = true) → s.si < N ∧ s.sj ≤ (N : Int) - 1 - s.si) := by
  obtain ⟨n, tr, h⟩ := hr
  have hI : Inv N s := (progress_ticks N bars0 h1 hN hlen n s tr h).1
  refine ⟨tick_total N s h1 hN hI, hI.lenB, hI.lenS, hI.si0, hI.sj0, ?_⟩
  intro hc
  have hj := hI.sj0
  rcases Bool.eq_false_or_eq_true s.sorting with hs | hs
  · have := (hI.busy hs).1
    constructor <;> omega
  · obtain ⟨d1, d2, _⟩ := hI.done hs
    rcases hc with hc | hc
    · have := d2 hc
      constructor <;> omega
    · rw [hs] at hc
      exact Bool.noConfusion hc

theorem indices_in_range_witness :
    (1 ≤ 3 ∧ (3 : Int) ≤ INT_MAX ∧ [3, 1, 2].length = 3 ∧
      Reachable 3 [3, 1, 2] ⟨[1, 3, 2], [false, false, false], 0, 1, true⟩) ∧
    ((∃ s' st, tick 3 ⟨[1, 3, 2], [false, false, false], 0, 1, true⟩ = .ok (s', st)) ∧
      [1, 3, 2].length = 3 ∧ [false, false, false].length = 3 ∧ (0 : Int) ≤ 0 ∧
      (0 : Int) ≤ 1 ∧
      ((2 ≤ 3 ∨ true = true) → (0 : Int) < (3 : Nat) ∧ (1 : Int) ≤ ((3 : Nat) : Int) - 1 - 0)) :=
  ⟨⟨by decide, by decide, rfl, ⟨1, _, rfl⟩⟩,
   indices_in_range 3 [3, 1, 2] (by decide) (by decide) rfl
     ⟨[1, 3, 2], [false, false, false], 0, 1, true⟩ ⟨1, _, rfl⟩⟩

/-- C7: when the initial sequence is non-decreasing (all values equal included), no
tick of the run exchanges a pair and `bars` is the initial sequence in every state
reached; for a sequence of length `N`, `1 ≤ N ≤ INT_MAX`, the run goes on for any number
of ticks. -/
theorem sorted_input_no_swap (N : Nat) (bars0 : List Int) (hs : bars0.Sorted (· ≤ ·)) :
    (∀ n s tr, ticks N n (init N bars0) = .ok (s, tr) →
      swapCount tr = 0 ∧ s.bars = bars0) ∧
    (1 ≤ N → (N : Int) ≤ INT_MAX → bars0.length = N →
      ∀ n, ∃ s tr, ticks N n (init N bars0) = .ok (s, tr)) := by
  refine ⟨?_, fun h1 hN hlen n => by
    obtain ⟨s, tr, ht, _⟩ := ticks_total N h1 hN n (init N bars0) (inv_init N bars0 h1 hlen)
    exact ⟨s, tr, ht⟩⟩
  intro n
  induction n with
  | zero =>
    intro s tr h
    simp only [ticks] at h
    injection h with h
    injection h with e1 e2
    subst e1; subst e2
    exact ⟨rfl, rfl⟩
  | succ n ih =>
    intro s tr h
    obtain ⟨s1, tr1, st, e1, e2, e3⟩ := ticks_succ_inv N n _ s tr h
    obtain ⟨hc, hb⟩ := ih s1 tr1 e1
    subst e3
    rcases tick_bars N s1 s st e2 with ⟨h1, h2⟩ | ⟨a, b, _, ha, hb', hab, _, _⟩
    · refine ⟨?_, by rw [h1, hb]⟩
      rw [swapCount_snoc, hc]
      cases st with
      | compare j sw =>
        cases sw with
        | true => exact absurd rfl (h2 j)
        | false => rfl
      | finalize ks => rfl
      | idle => rfl
    · rw [hb] at ha hb'
      have := sorted_adj bars0 _ a b hs ha hb'
      omega

theorem sorted_input_no_swap_witness :
    ([4, 4, 4] : List Int).Sorted (· ≤ ·) ∧
    (∀ n s tr, ticks 3 n (init 3 [4, 4, 4]) = .ok (s, tr) →
      swapCount tr = 0 ∧ s.bars = [4, 4, 4]) ∧
    (1 ≤ 3 → ((3 : Nat) : Int) ≤ INT_MAX → [4, 4, 4].length = 3 →
      ∀ n, ∃ s tr, ticks 3 n (init 3 [4, 4, 4]) = .ok (s, tr)) :=
  ⟨by decide, sorted_input_no_swap 3 [4, 4, 4] (by decide)⟩

/-- C8, at `N = 0`: in the initial state the guard of the compare/swap branch,
`sj < num_bars - si - 1` in `unsigned` arithmetic, holds; the tick is not idle but
evaluates `bars[sj]` on the empty vector and fails. -/
theorem compare_attempted_zero :
    toUnsigned (init 0 []).sj < toUnsigned (((0 : Nat) : Int) - (init 0 []).si - 1) ∧
    vecGet (init 0 []).bars (init 0 []).sj = .error .outOfRange ∧
    tick 0 (init 0 []) = .error .outOfRange :=
  ⟨by decide, rfl, rfl⟩

/-- C8 (amended to `N = 1`): with one bar the first tick takes the finalize branch and
ends in `DONE`, and no tick of the run compares or exchanges anything. -/
theorem single_bar_done (x : Int) :
    ticks 1 1 (init 1 [x]) = .ok (⟨[x], [true], 1, 0, false⟩, [.finalize [0, 0]]) ∧
    ∀ n s tr, ticks 1 n (init 1 [x]) = .ok (s, tr) → compareCount tr = 0 ∧ swapCount tr = 0 := by
  constructor
  · rfl
  · intro n s tr h
    obtain ⟨hI, hP⟩ := progress_ticks 1 [x] (by decide) (by decide) rfl n s tr h
    have hc : compareCount tr = 0 := by
      rcases Bool.eq_false_or_eq_true s.sorting with hs | hs
      · obtain ⟨_, p2, _, _⟩ := hP.busy hs
        have := (busy_lt 1 n s tr hI hP hs).2 rfl
        omega
      · exact (hP.done1 hs rfl).2.1
    have := swapCount_le tr
    exact ⟨hc, by omega⟩

/-- C10: for `2 ≤ N` (in the range of `int`) and every initial sequence of length `N`,
the machine is at `DONE` after `N(N-1)/2 + (N-1)` ticks and in no state before; of these
ticks `N(N-1)/2` take the compare/swap branch and `N - 1` the finalize branch. -/
theorem done_after_exact_ticks (N : Nat) (bars0 : List Int) (h2 : 2 ≤ N)
    (hN : (N : Int) ≤ INT_MAX) (hlen : bars0.length = N) :
    (∃ s tr, ticks N (N * (N - 1) / 2 + (N - 1)) (init N bars0) = .ok (s, tr) ∧
      s.sorting = false ∧ tr.length = N * (N - 1) / 2 + (N - 1) ∧
      compareCount tr = N * (N - 1) / 2 ∧ finalizeCount tr = N - 1) ∧
    (∀ n s tr, n < N * (N - 1) / 2 + (N - 1) → ticks N n (init N bars0) = .ok (s, tr) →
      s.sorting = true) := by
  have h1 : 1 ≤ N := by omega
  have hK := passStart_last N h1
  constructor
  · obtain ⟨s, tr, ht, _⟩ := ticks_total N h1 hN (N * (N - 1) / 2 + (N - 1)) (init N bars0)
      (inv_init N bars0 h1 hlen)
    obtain ⟨hI, hP⟩ := progress_ticks N bars0 h1 hN hlen _ s tr ht
    have hs : s.sorting = false := by
      rcases Bool.eq_false_or_eq_true s.sorting with hs | hs
      · have := (busy_lt N _ s tr hI hP hs).1 h2
        omega
      · exact hs
    obtain ⟨_, p2, p3, _⟩ := hP.done2 hs h2
    exact ⟨s, tr, ht, hs, hP.len, by omega, p3⟩
  · intro n s tr hn h
    obtain ⟨hI, hP⟩ := progress_ticks N bars0 h1 hN hlen n s tr h
    rcases Bool.eq_false_or_eq_true s.sorting with hs | hs
    · exact hs
    · have := (hP.done2 hs h2).1
      omega

theorem done_after_exact_ticks_witness :
    (2 ≤ 10 ∧ (10 : Int) ≤ INT_MAX ∧ [9, 3, 7, 1, 8, 2, 5, 10, 4, 6].length = 10) ∧
    (∃ s tr, ticks 10 54 (init 10 [9, 3, 7, 1, 8, 2, 5, 10, 4, 6]) = .ok (s, tr) ∧
      s.sorting = false ∧ tr.length = 54 ∧ compareCount tr = 45 ∧ finalizeCount tr = 9) ∧
    (∀ n s tr, n < 54 → ticks 10 n (init 10 [9, 3, 7, 1, 8, 2, 5, 10, 4, 6]) = .ok (s, tr) →
      s.sorting = true) :=
  ⟨⟨by decide, by decide, rfl⟩,
   done_after_exact_ticks 10 [9, 3, 7, 1, 8, 2, 5, 10, 4, 6] (by decide) (by decide) rfl⟩

/-- C4, on `bars = [3, 1, 2]`, `sj = 0`, a 128-wide slot, clock readings 0, 100, 250,
300, 500 and a close request pending at the first poll: the window is closed in the
first pass, yet that pass and a second one issue `clear`, `drawBars`, `display`, and
after the loop the pair is exchanged, `bars = [1, 3, 2]`. -/
theorem swap_commits_after_close :
    swapBranch 128 [0, 100, 250, 300, 500] [[.closed]] ⟨true, []⟩
        ⟨[3, 1, 2], [false, false, false], 0, 0, true⟩ =
      { window := ⟨false, [.close, .clear, .drawBars 0 1 (448 / 5) (832 / 5), .display,
                           .clear, .drawBars 0 1 (704 / 5) (576 / 5), .display]⟩,
        frames := [⟨100, 1 / 5, 448 / 5, 832 / 5⟩, ⟨300, 3 / 5, 704 / 5, 576 / 5⟩],
        bars := some (.ok [1, 3, 2]) } := by
  simp [swapBranch, animLoop, pollAnim, slotX1, slotX2, duration, swapBars, vecGet, vecSet,
    incr, INT_MAX]
  norm_num

/-- C4 (amended): a close request polled inside the animation loop closes the window
and nothing more.  `window.close()` is called; the loop makes the passes the clock
dictates, the same as without any request; every pass, those after the request
included, issues `clear`, `drawBars` with the positions of its frame and `display`, the
pass that polled the request and all later ones after the `close`; and once a reading
taken for the guard has reached 500 ms the swap is committed: `bars[sj]` and
`bars[sj + 1]` are exchanged.  The window is closed when the branch ends, so the outer
loop stops at its next test of `window.isOpen()`. -/
theorem close_mid_swap (bar_width : ℚ) (clock : List Int) (polls : List (List Event))
    (w : Window) (s : State) (a b : Int)
    (h0 : 0 ≤ s.sj) (hmax : s.sj < INT_MAX) (ha : s.bars[s.sj.toNat]? = some a)
    (hb : s.bars[s.sj.toNat + 1]? = some b)
    (hfin : ∃ k g, clock[2 * k]? = some g ∧ 500 ≤ g)
    (hc : ∃ evs ∈ polls.take (swapBranch bar_width clock polls w s).frames.length,
      Event.closed ∈ evs) :
    (swapBranch bar_width clock polls w s).window.isOpen = false ∧
    (swapBranch bar_width clock polls w s).bars =
      some (.ok ((s.bars.set s.sj.toNat b).set (s.sj.toNat + 1) a)) ∧
    (swapBranch bar_width clock polls w s).frames =
      (swapBranch bar_width clock [] w s).frames ∧
    Call.close ∈ (swapBranch bar_width clock polls w s).window.calls ∧
    ∀ i f, (swapBranch bar_width clock polls w s).frames[i]? = some f →
      ∃ pre post,
        (swapBranch bar_width clock polls w s).window.calls =
          w.calls ++ pre ++
            [.clear, .drawBars s.sj (s.sj + 1) f.currentX1 f.currentX2, .display] ++ post ∧
        pre.count Call.display = i ∧
        ((∃ j evs, j ≤ i ∧ polls[j]? = some evs ∧ Event.closed ∈ evs) → Call.close ∈ pre) := by
  obtain ⟨new, hn, hpass⟩ :=
    animLoop_passes (slotX1 bar_width s.sj) (slotX2 bar_width s.sj) s.sj clock polls w []
  have hfr : (swapBranch bar_width clock polls w s).frames = new := by
    simp only [swapBranch, hn, List.nil_append]
  have hall : ∀ i f, (swapBranch bar_width clock polls w s).frames[i]? = some f →
      ∃ pre post,
        (swapBranch bar_width clock polls w s).window.calls =
          w.calls ++ pre ++
            [.clear, .drawBars s.sj (s.sj + 1) f.currentX1 f.currentX2, .display] ++ post ∧
        pre.count Call.display = i ∧
        ((∃ j evs, j ≤ i ∧ polls[j]? = some evs ∧ Event.closed ∈ evs) →
          Call.close ∈ pre) := by
    intro i f hf
    rw [hfr] at hf
    exact (hpass i f hf).2.2.2.2.2
  refine ⟨?_, ?_, ?_, ?_, hall⟩
  · exact animLoop_closed _ _ _ clock polls w [] (Or.inr (by simpa [swapBranch] using hc))
  · simp only [swapBranch]
    rw [animLoop_finished _ _ _ clock polls w [] hfin, if_pos rfl,
      swapBars_eq s.bars s.sj a b h0 hmax ha hb]
  · simp only [swapBranch]
    exact (animLoop_frames_indep _ _ _ clock [] polls w w []).1
  · obtain ⟨evs, hm, hcl⟩ := hc
    obtain ⟨j, hj⟩ := List.mem_iff_getElem?.mp hm
    rw [List.getElem?_take] at hj
    split at hj
    · rename_i hlt
      obtain ⟨pre, post, hcalls, _, hclose⟩ :=
        hall j _ (List.getElem?_eq_getElem hlt)
      rw [hcalls]
      have := hclose ⟨j, evs, le_refl _, hj, hcl⟩
      simp [this]
    · exact Option.noConfusion hj

theorem close_mid_swap_witness :
    ((0 : Int) ≤ 0 ∧ (0 : Int) < INT_MAX ∧ ([3, 1, 2] : List Int)[0]? = some 3 ∧
      ([3, 1, 2] : List Int)[1]? = some 1 ∧
      (∃ k g, [(0 : Int), 100, 250, 300, 500][2 * k]? = some g ∧ 500 ≤ g) ∧
      ∃ evs ∈ [[Event.closed]].take 2, Event.closed ∈ evs) ∧
    (swapBranch 128 [0, 100, 250, 300, 500] [[.closed]] ⟨true, []⟩
        ⟨[3, 1, 2], [false, false, false], 0, 0, true⟩).window.isOpen = false ∧
    (swapBranch 128 [0, 100, 250, 300, 500] [[.closed]] ⟨true, []⟩
        ⟨[3, 1, 2], [false, false, false], 0, 0, true⟩).bars = some (.ok [1, 3, 2]) ∧
    (swapBranch 128 [0, 100, 250, 300, 500] [[.closed]] ⟨true, []⟩
        ⟨[3, 1, 2], [false, false, false], 0, 0, true⟩).frames =
      (swapBranch 128 [0, 100, 250, 300, 500] [] ⟨true, []⟩
        ⟨[3, 1, 2], [false, false, false], 0, 0, true⟩).frames ∧
    Call.close ∈ (swapBranch 128 [0, 100, 250, 300, 500] [[.closed]] ⟨true, []⟩
        ⟨[3, 1, 2], [false, false, false], 0, 0, true⟩).window.calls ∧
    ∀ i f, (swapBranch 128 [0, 100, 250, 300, 500] [[.closed]] ⟨true, []⟩
        ⟨[3, 1, 2], [false, false, false], 0, 0, true⟩).frames[i]? = some f →
      ∃ pre post,
        (swapBranch 128 [0, 100, 250, 300, 500] [[.closed]] ⟨true, []⟩
            ⟨[3, 1, 2], [false, false, false], 0, 0, true⟩).window.calls =
          [] ++ pre ++ [.clear, .drawBars 0 (0 + 1) f.currentX1 f.currentX2, .display] ++
            post ∧
        pre.count Call.display = i ∧
        ((∃ j evs, j ≤ i ∧ [[Event.closed]][j]? = some evs ∧ Event.closed ∈ evs) →
          Call.close ∈ pre) :=
  ⟨⟨by decide, by decide, rfl, rfl, ⟨2, 500, rfl, by decide⟩, ⟨[.closed], by simp, by simp⟩⟩,
   close_mid_swap 128 [0, 100, 250, 300, 500] [[.closed]] ⟨true, []⟩
     ⟨[3, 1, 2], [false, false, false], 0, 0, true⟩ 3 1 (by decide) (by decide) rfl rfl
     ⟨2, 500, rfl, by decide⟩
     ⟨[.closed], by
       norm_num [swapBranch, animLoop, pollAnim, slotX1, slotX2, duration], by simp⟩⟩

/-- C9, on the non-decreasing readings 499, 501, 501: the guard sees 499, the fraction
is computed from 501, and the frame is drawn with `t = 501/500 > 1`, bar `sj` to the
right of the slot centre `x2`. -/
theorem fraction_exceeds_one :
    List.Chain' (· ≤ ·) [(499 : Int), 501, 501] ∧
    swapBranch 128 [499, 501, 501] [] ⟨true, []⟩
        ⟨[3, 1, 2], [false, false, false], 0, 0, true⟩ =
      { window := ⟨true, [.clear, .drawBars 0 1 (24032 / 125) (7968 / 125), .display]⟩,
        frames := [⟨501, 501 / 500, 24032 / 125, 7968 / 125⟩],
        bars := some (.ok [1, 3, 2]) } ∧
    (1 : ℚ) < 501 / 500 ∧ slotX2 128 0 < 24032 / 125 := by
  refine ⟨by simp, ?_, by norm_num, by norm_num [slotX2]⟩
  simp [swapBranch, animLoop, pollAnim, slotX1, slotX2, duration, swapBars, vecGet, vecSet,
    incr, INT_MAX]
  norm_num

/-- C9 (amended: the fraction is not clamped): for non-negative clock readings, pass
`i` of the animation is entered on a guard reading `clock[2 i]` below 500 ms and draws
its frame with `t = elapsed / duration ≥ 0`, where `elapsed = clock[2 i + 1]` is the
second reading of that pass; `t ≤ 1` exactly when that second reading is at most 500
ms.  The pass calls `drawBars` with `currentX1 = x1 + (x2 - x1) t` and
`currentX2 = x2 - (x2 - x1) t`, and when `t ≤ 1`, for a slot width that is not
negative, both lie between the slot centres `x1` and `x2`. -/
theorem fraction_bounds (bar_width : ℚ) (clock : List Int) (polls : List (List Event))
    (w : Window) (s : State) (hbw : 0 ≤ bar_width) (hclock : ∀ e ∈ clock, 0 ≤ e) :
    ∀ i f, (swapBranch bar_width clock polls w s).frames[i]? = some f →
      (∃ g, clock[2 * i]? = some g ∧ g < 500) ∧
      clock[2 * i + 1]? = some f.elapsed ∧
      f.t = (f.elapsed : ℚ) / duration ∧ 0 ≤ f.t ∧ (f.t ≤ 1 ↔ f.elapsed ≤ 500) ∧
      f.currentX1 =
        slotX1 bar_width s.sj + (slotX2 bar_width s.sj - slotX1 bar_width s.sj) * f.t ∧
      f.currentX2 =
        slotX2 bar_width s.sj - (slotX2 bar_width s.sj - slotX1 bar_width s.sj) * f.t ∧
      (∃ pre post,
        (swapBranch bar_width clock polls w s).window.calls =
          w.calls ++ pre ++
            [.clear, .drawBars s.sj (s.sj + 1) f.currentX1 f.currentX2, .display] ++ post ∧
        pre.count Call.display = i) ∧
      (f.elapsed ≤ 500 →
        slotX1 bar_width s.sj ≤ f.currentX1 ∧ f.currentX1 ≤ slotX2 bar_width s.sj ∧
        slotX1 bar_width s.sj ≤ f.currentX2 ∧ f.currentX2 ≤ slotX2 bar_width s.sj) := by
  obtain ⟨new, hn, hpass⟩ :=
    animLoop_passes (slotX1 bar_width s.sj) (slotX2 bar_width s.sj) s.sj clock polls w []
  have hfr : (swapBranch bar_width clock polls w s).frames = new := by
    simp only [swapBranch, hn, List.nil_append]
  intro i f hf
  rw [hfr] at hf
  obtain ⟨hg, he, ht, hx1, hx2, pre, post, hcalls, hcnt, _⟩ := hpass i f hf
  have hm : f.elapsed ∈ clock := List.mem_iff_getElem?.mpr ⟨_, he⟩
  have hnn : (0 : ℚ) ≤ (f.elapsed : ℚ) := by exact_mod_cast hclock _ hm
  have ht0 : 0 ≤ f.t := by
    rw [ht]; unfold duration; positivity
  have hiff : f.t ≤ 1 ↔ f.elapsed ≤ 500 := by
    rw [ht]; unfold duration
    rw [div_le_one (by norm_num)]
    exact_mod_cast Iff.rfl
  refine ⟨hg, he, ht, ht0, hiff, hx1, hx2, ⟨pre, post, hcalls, hcnt⟩, ?_⟩
  intro hle
  have ht1 : f.t ≤ 1 := hiff.mpr hle
  have hd : slotX2 bar_width s.sj - slotX1 bar_width s.sj = bar_width := by
    unfold slotX1 slotX2; ring
  rw [hx1, hx2, hd]
  have hmul0 : 0 ≤ bar_width * f.t := mul_nonneg hbw ht0
  have hmul1 : bar_width * f.t ≤ bar_width := by
    calc bar_width * f.t ≤ bar_width * 1 := mul_le_mul_of_nonneg_left ht1 hbw
      _ = bar_width := mul_one _
  refine ⟨?_, ?_, ?_, ?_⟩ <;> linarith

theorem fraction_bounds_witness :
    ((0 : ℚ) ≤ 128 ∧ ∀ e ∈ [(0 : Int), 100, 250, 300, 500], 0 ≤ e) ∧
    ∀ i f, (swapBranch 128 [0, 100, 250, 300, 500] [[.closed]] ⟨true, []⟩
        ⟨[3, 1, 2], [false, false, false], 0, 0, true⟩).frames[i]? = some f →
      (∃ g, [(0 : Int), 100, 250, 300, 500][2 * i]? = some g ∧ g < 500) ∧
      [(0 : Int), 100, 250, 300, 500][2 * i + 1]? = some f.elapsed ∧
      f.t = (f.elapsed : ℚ) / duration ∧ 0 ≤ f.t ∧ (f.t ≤ 1 ↔ f.elapsed ≤ 500) ∧
      f.currentX1 = slotX1 128 0 + (slotX2 128 0 - slotX1 128 0) * f.t ∧
      f.currentX2 = slotX2 128 0 - (slotX2 128 0 - slotX1 128 0) * f.t ∧
      (∃ pre post,
        (swapBranch 128 [0, 100, 250, 300, 500] [[.closed]] ⟨true, []⟩
            ⟨[3, 1, 2], [false, false, false], 0, 0, true⟩).window.calls =
          [] ++ pre ++ [.clear, .drawBars 0 (0 + 1) f.currentX1 f.currentX2, .display] ++
            post ∧
        pre.count Call.display = i) ∧
      (f.elapsed ≤ 500 →
        slotX1 128 0 ≤ f.currentX1 ∧ f.currentX1 ≤ slotX2 128 0 ∧
        slotX1 128 0 ≤ f.currentX2 ∧ f.currentX2 ≤ slotX2 128 0) :=
  ⟨⟨by norm_num, by decide⟩,
   fraction_bounds 128 [0, 100, 250, 300, 500] [[.closed]] ⟨true, []⟩
     ⟨[3, 1, 2], [false, false, false], 0, 0, true⟩ (by norm_num) (by decide)⟩

end SortVis
